import Mathlib

/-!
Verification development for a leech-only BitTorrent client.

This file gives a shallow embedding, in Lean, of the client's core data
structures and operations — the bencode codec, the piece bitfield, the piece
manager (piece/block bookkeeping and hash verification), the rarest-first
selection strategy, and the peer-wire connection state machine — and proves
the specification's claims about them.

Modelling conventions:
- Go `int`/`int64` values are modelled as `Int`; where Go uses truncated
  division or modulus on signed integers we use `Int.tdiv`/`Int.tmod`, which
  have exactly Go's semantics.
- Go byte slices are `List Nat`; Go maps are association lists with
  `mlookup`/`mapInsert`/`mapDelete` (insert replaces an existing key, as a Go
  map assignment does).
- Functions that in Go mutate a receiver and return an `error` are modelled
  as pure functions returning the new state paired with an `Option String`
  (`some msg` is a non-nil error carrying the formatted message).
- SHA-1 is external to the repository; the piece manager is parametrised
  over an arbitrary digest function `h : List Nat → List Nat`, which is what
  `crypto/sha1.Sum` instantiates.  None of the manager's control flow depends
  on anything but equality tests on digests, so every theorem below holds for
  the SHA-1 instantiation in particular.
-/

namespace BTC

/-- Association-list model of a Go map: lookup by key. -/
def mlookup {κ α : Type} [DecidableEq κ] : List (κ × α) → κ → Option α
  | [], _ => none
  | (k, v) :: rest, key => if k = key then some v else mlookup rest key

/-- Association-list model of Go map assignment `m[key] = val`: replace the
binding if the key is present, otherwise append it. -/
def mapInsert {κ α : Type} [DecidableEq κ] : List (κ × α) → κ → α → List (κ × α)
  | [], key, val => [(key, val)]
  | (k, v) :: rest, key, val =>
    if k = key then (key, val) :: rest else (k, v) :: mapInsert rest key val

/-- Association-list model of Go `delete(m, key)`. -/
def mapDelete {κ α : Type} [DecidableEq κ] : List (κ × α) → κ → List (κ × α)
  | [], _ => []
  | (k, v) :: rest, key =>
    if k = key then mapDelete rest key else (k, v) :: mapDelete rest key

/-- Reading a Go map with a default value for an absent key (Go's zero value). -/
def mlookupD {κ α : Type} [DecidableEq κ] (m : List (κ × α)) (key : κ) (d : α) : α :=
  (mlookup m key).getD d

theorem mlookup_mapInsert {κ α : Type} [DecidableEq κ] (m : List (κ × α)) (key j : κ) (val : α) :
    mlookup (mapInsert m key val) j = if key = j then some val else mlookup m j := by
  induction m with
  | nil => simp [mapInsert, mlookup]
  | cons p rest ih =>
    obtain ⟨k, v⟩ := p
    by_cases hk : k = key
    · subst hk
      by_cases hj : k = j <;> simp [mapInsert, mlookup, hj]
    · by_cases hj : k = j
      · subst hj
        have : ¬ key = k := fun h => hk h.symm
        simp [mapInsert, mlookup, hk, this]
      · simp [mapInsert, mlookup, hk, hj, ih]

theorem mlookup_mapDelete {κ α : Type} [DecidableEq κ] (m : List (κ × α)) (key j : κ) :
    mlookup (mapDelete m key) j = if key = j then none else mlookup m j := by
  induction m with
  | nil => simp [mapDelete, mlookup]
  | cons p rest ih =>
    obtain ⟨k, v⟩ := p
    by_cases hk : k = key
    · subst hk
      by_cases hj : k = j
      · subst hj
        simp [mapDelete, mlookup, ih]
      · simp [mapDelete, mlookup, hj, ih]
    · by_cases hj : k = j
      · subst hj
        have : ¬ key = k := fun h => hk h.symm
        simp [mapDelete, mlookup, hk, this]
      · simp [mapDelete, mlookup, hk, hj, ih]

end BTC

namespace Pieces

open BTC

/-! ## Bitfield (package `pieces`, bitfield file) -/

/-- Go struct `Bitfield`: raw bytes plus the number of pieces. -/
structure Bitfield where
  data : List Nat
  size : Int
deriving DecidableEq, Repr

/-- Go `NewBitfield`: `(numPieces + 7) / 8` zero bytes. -/
def NewBitfield (numPieces : Int) : Bitfield :=
  { data := List.replicate ((numPieces + 7).tdiv 8).toNat 0
    size := numPieces }

/-- Go `NewBitfieldFromBytes`: pad with zero bytes if the slice is shorter
than `(numPieces + 7) / 8`. -/
def NewBitfieldFromBytes (data : List Nat) (numPieces : Int) : Bitfield :=
  let expectedBytes := ((numPieces + 7).tdiv 8).toNat
  if data.length < expectedBytes then
    { data := data ++ List.replicate (expectedBytes - data.length) 0, size := numPieces }
  else
    { data := data, size := numPieces }

/-- Go `Bitfield.HasPiece`: test bit `pieceIndex` (big-endian within a byte). -/
def Bitfield.HasPiece (bf : Bitfield) (pieceIndex : Int) : Bool :=
  if pieceIndex < 0 ∨ pieceIndex ≥ bf.size then false
  else
    let byteIndex := (pieceIndex.tdiv 8).toNat
    let bitIndex := (pieceIndex.tmod 8).toNat
    (bf.data.getD byteIndex 0) &&& (0x80 >>> bitIndex) ≠ 0

/-- Go `Bitfield.SetPiece`: set bit `pieceIndex`, or return an out-of-range
error leaving the bitfield unchanged. -/
def Bitfield.SetPiece (bf : Bitfield) (pieceIndex : Int) : Bitfield × Option String :=
  if pieceIndex < 0 ∨ pieceIndex ≥ bf.size then
    (bf, some ("piece index " ++ toString pieceIndex ++ " out of range"))
  else
    let byteIndex := (pieceIndex.tdiv 8).toNat
    let bitIndex := (pieceIndex.tmod 8).toNat
    ({ bf with data := bf.data.set byteIndex ((bf.data.getD byteIndex 0) ||| (0x80 >>> bitIndex)) },
     none)

/-- Go `Bitfield.GetMissingPieces`: indices `0 ≤ i < size` whose bit is clear,
in ascending order. -/
def Bitfield.GetMissingPieces (bf : Bitfield) : List Int :=
  (List.range bf.size.toNat).filterMap
    (fun n : Nat => if bf.HasPiece ((n : Nat) : Int) then none else some ((n : Nat) : Int))

/-- Go `Bitfield.GetNumPieces`. -/
def Bitfield.GetNumPieces (bf : Bitfield) : Int := bf.size

/-! ## Piece manager (package `pieces`, manager file) -/

/-- Go constant `BlockSize` = 16384. -/
def BlockSize : Int := 16384

/-- Go struct `PieceState`: one in-progress download record. -/
structure PieceState where
  Index : Int
  Length : Int
  Hash : List Nat
  Downloaded : Int
  Blocks : List (Int × List Nat)
  Requested : List (Int × Bool)
deriving DecidableEq, Repr

/-- Go struct `BlockRequest`. -/
structure BlockRequest where
  PieceIndex : Int
  Begin : Int
  Length : Int
deriving DecidableEq, Repr

/-- Go struct `PieceManager` (the mutex is irrelevant to the sequential model). -/
structure PieceManager where
  pieceLength : Int
  totalLength : Int
  pieceHashes : List (List Nat)
  numPieces : Int
  bitfield : Bitfield
  pendingPieces : List (Int × PieceState)
  completePieces : List (Int × List Nat)
deriving DecidableEq, Repr

/-- Go `NewPieceManager`. -/
def NewPieceManager (pieceLength totalLength : Int) (pieceHashes : List (List Nat)) :
    PieceManager :=
  { pieceLength := pieceLength
    totalLength := totalLength
    pieceHashes := pieceHashes
    numPieces := (pieceHashes.length : Int)
    bitfield := NewBitfield (pieceHashes.length : Int)
    pendingPieces := []
    completePieces := [] }

/-- Go `PieceManager.GetBitfield` (the Go method returns a clone; value
semantics make the clone the bitfield itself). -/
def PieceManager.GetBitfield (pm : PieceManager) : Bitfield := pm.bitfield

/-- Go `PieceManager.HasPiece`. -/
def PieceManager.HasPiece (pm : PieceManager) (pieceIndex : Int) : Bool :=
  pm.bitfield.HasPiece pieceIndex

/-- Go `PieceManager.GetPieceLength`: the last piece may be shorter
(`totalLength % pieceLength`, Go truncated modulus). -/
def PieceManager.GetPieceLength (pm : PieceManager) (pieceIndex : Int) : Int :=
  if pieceIndex < 0 ∨ pieceIndex ≥ pm.numPieces then 0
  else if pieceIndex = pm.numPieces - 1 then
    let lastPieceLength := pm.totalLength.tmod pm.pieceLength
    if lastPieceLength = 0 then pm.pieceLength else lastPieceLength
  else pm.pieceLength

/-- Offsets visited by the Go loop
`for offset := 0; offset < length; offset += BlockSize`. -/
def gridOffsets (length : Int) : List Int :=
  (List.range ((length + BlockSize - 1).tdiv BlockSize).toNat).map
    (fun k : Nat => ((k : Nat) : Int) * BlockSize)

/-- Go `PieceManager.StartPiece`. -/
def PieceManager.StartPiece (pm : PieceManager) (pieceIndex : Int) :
    PieceManager × Option String :=
  if pieceIndex < 0 ∨ pieceIndex ≥ pm.numPieces then
    (pm, some ("piece index " ++ toString pieceIndex ++ " out of range"))
  else if pm.bitfield.HasPiece pieceIndex then
    (pm, some ("piece " ++ toString pieceIndex ++ " already complete"))
  else if (mlookup pm.pendingPieces pieceIndex).isSome then
    (pm, some ("piece " ++ toString pieceIndex ++ " already in progress"))
  else
    let pieceLength := pm.GetPieceLength pieceIndex
    let st : PieceState :=
      { Index := pieceIndex
        Length := pieceLength
        Hash := pm.pieceHashes.getD pieceIndex.toNat []
        Downloaded := 0
        Blocks := []
        Requested := [] }
    ({ pm with pendingPieces := mapInsert pm.pendingPieces pieceIndex st }, none)

/-- The download record after marking `offset` requested (Go
`GetNextBlockRequest`'s update). -/
def requestedPiece (piece : PieceState) (offset : Int) : PieceState :=
  { piece with Requested := mapInsert piece.Requested offset true }

/-- Go `PieceManager.GetNextBlockRequest`: scan the block grid for the first
offset that is neither requested nor buffered, mark it requested, and return
it; `(none, pm, none)` when there is no such offset. -/
def PieceManager.GetNextBlockRequest (pm : PieceManager) (pieceIndex : Int) :
    Option BlockRequest × PieceManager × Option String :=
  match mlookup pm.pendingPieces pieceIndex with
  | none => (none, pm, some ("piece " ++ toString pieceIndex ++ " not in progress"))
  | some piece =>
    match (gridOffsets piece.Length).find?
        (fun offset => !(mlookupD piece.Requested offset false) &&
          (mlookup piece.Blocks offset).isNone) with
    | none => (none, pm, none)
    | some offset =>
      let blockLength := if offset + BlockSize > piece.Length
        then piece.Length - offset else BlockSize
      let piece' := requestedPiece piece offset
      (some { PieceIndex := pieceIndex, Begin := offset, Length := blockLength },
       { pm with pendingPieces := mapInsert pm.pendingPieces pieceIndex piece' },
       none)

/-- Total length of the blocks stored at the grid offsets of a piece, or
`none` if some grid offset has no block (Go `isPieceComplete`'s loop). -/
def sumGridBlocks : List Int → List (Int × List Nat) → Option Nat
  | [], _ => some 0
  | offset :: rest, blocks =>
    match mlookup blocks offset with
    | some block => (sumGridBlocks rest blocks).map (fun s => block.length + s)
    | none => none

/-- Go `PieceManager.isPieceComplete`: every grid offset is buffered and the
buffered bytes sum to the piece length. -/
def isPieceComplete (piece : PieceState) : Bool :=
  match sumGridBlocks (gridOffsets piece.Length) piece.Blocks with
  | none => false
  | some total => (total : Int) == piece.Length

/-- Semantics of Go `copy(buf[offset:], block)` on a fixed-length buffer. -/
def writeAt (buf : List Nat) (offset : Nat) (block : List Nat) : List Nat :=
  buf.take offset ++ block.take (buf.length - offset) ++ buf.drop (offset + block.length)

/-- Go `completePiece`'s assembly loop: copy each buffered block at its grid
offset into a zeroed buffer of the piece length (an absent key reads as the
nil slice, copying nothing). -/
def assemblePiece (length : Int) (blocks : List (Int × List Nat)) : List Nat :=
  (gridOffsets length).foldl
    (fun buf offset => writeAt buf offset.toNat (mlookupD blocks offset []))
    (List.replicate length.toNat 0)

/-- Go `PieceManager.completePiece`, parametrised by the digest function `h`
(Go calls `sha1.Sum`): verify the assembled bytes; on match set the bit and
retain the data, on mismatch destroy the record and return an error.  (Go
dereferences the pending record without a nil check; the `none` branch is the
unreachable nil dereference.) -/
def PieceManager.completePiece (h : List Nat → List Nat) (pm : PieceManager)
    (pieceIndex : Int) : PieceManager × Option String :=
  match mlookup pm.pendingPieces pieceIndex with
  | none => (pm, some "completePiece: nil piece state")
  | some piece =>
    let pieceData := assemblePiece piece.Length piece.Blocks
    let hash := h pieceData
    if hash ≠ piece.Hash then
      ({ pm with pendingPieces := mapDelete pm.pendingPieces pieceIndex },
       some ("piece " ++ toString pieceIndex ++ " hash verification failed"))
    else
      ({ pm with
          bitfield := (pm.bitfield.SetPiece pieceIndex).1
          completePieces := mapInsert pm.completePieces pieceIndex pieceData
          pendingPieces := mapDelete pm.pendingPieces pieceIndex },
       none)

/-- The download record after buffering block `(b, d)`: Go `AddBlock`'s
update of `Blocks` and `Downloaded` (the block slice is copied; with value
semantics the copy is the list itself). -/
def addedPiece (piece : PieceState) (b : Int) (d : List Nat) : PieceState :=
  { piece with
      Blocks := mapInsert piece.Blocks b d
      Downloaded := piece.Downloaded + (d.length : Int) }

/-- Go `PieceManager.AddBlock`: guard, buffer the block, bump `Downloaded`,
and complete the piece if every grid offset is now buffered. -/
def PieceManager.AddBlock (h : List Nat → List Nat) (pm : PieceManager)
    (pieceIndex begin_ : Int) (data : List Nat) : PieceManager × Option String :=
  match mlookup pm.pendingPieces pieceIndex with
  | none => (pm, some ("piece " ++ toString pieceIndex ++ " not in progress"))
  | some piece =>
    if begin_ < 0 ∨ begin_ ≥ piece.Length then
      (pm, some ("invalid block offset " ++ toString begin_ ++ " for piece " ++
        toString pieceIndex))
    else if begin_ + (data.length : Int) > piece.Length then
      (pm, some "block extends beyond piece boundary")
    else
      let piece' := addedPiece piece begin_ data
      let pm' := { pm with pendingPieces := mapInsert pm.pendingPieces pieceIndex piece' }
      if isPieceComplete piece' then pm'.completePiece h pieceIndex else (pm', none)

/-- Go `PieceManager.GetPieceData`: a copy of the stored bytes of a complete
piece, or an error. -/
def PieceManager.GetPieceData (pm : PieceManager) (pieceIndex : Int) :
    Except String (List Nat) :=
  if ¬ pm.bitfield.HasPiece pieceIndex then
    .error ("piece " ++ toString pieceIndex ++ " not complete")
  else
    match mlookup pm.completePieces pieceIndex with
    | some data => .ok data
    | none => .error ("piece " ++ toString pieceIndex ++ " data not found")

/-- Go `PieceManager.GetMissingPieces`. -/
def PieceManager.GetMissingPieces (pm : PieceManager) : List Int :=
  pm.bitfield.GetMissingPieces

/-- Go `PieceManager.CancelPiece`. -/
def PieceManager.CancelPiece (pm : PieceManager) (pieceIndex : Int) : PieceManager :=
  { pm with pendingPieces := mapDelete pm.pendingPieces pieceIndex }

end Pieces

namespace Pieces

open BTC

/-! ## Lemmas: bit-level behaviour of the bitfield -/

theorem getD_set (l : List Nat) (m n a : Nat) :
    (l.set m a).getD n 0 = if m = n ∧ m < l.length then a else l.getD n 0 := by
  induction l generalizing m n with
  | nil => simp
  | cons x xs ih =>
    cases m with
    | zero =>
      cases n with
      | zero => simp
      | succ n' => simp
    | succ m' =>
      cases n with
      | zero => simp
      | succ n' =>
        simp only [List.set_cons_succ, List.getD_cons_succ, List.length_cons, ih]
        by_cases hmn : m' = n'
        · subst hmn
          by_cases hlt : m' < xs.length
          · simp [hlt, Nat.succ_lt_succ hlt]
          · have : ¬ m' + 1 < xs.length + 1 := by omega
            simp [hlt, this]
        · have : ¬ (m' + 1 = n' + 1) := by omega
          simp [hmn, this]

theorem and_pow_ne_zero_iff (x m : Nat) : (x &&& 2 ^ m ≠ 0) ↔ x.testBit m = true := by
  rw [Nat.and_two_pow]
  rcases h : x.testBit m <;> simp [h]

theorem shift128 : ∀ r, r < 8 → 128 >>> r = 2 ^ (7 - r) := by decide

theorem setByte_bit (a ri rj : Nat) (hri : ri < 8) (hrj : rj < 8) :
    ((a ||| (128 >>> rj)) &&& (128 >>> ri) ≠ 0) ↔ (ri = rj ∨ a &&& (128 >>> ri) ≠ 0) := by
  rw [shift128 ri hri, shift128 rj hrj, and_pow_ne_zero_iff, and_pow_ne_zero_iff,
    Nat.testBit_lor]
  constructor
  · intro hb
    by_cases h : ri = rj
    · exact Or.inl h
    · refine Or.inr ?_
      have hne : (7 - rj) ≠ (7 - ri) := by omega
      rw [Nat.testBit_two_pow_of_ne hne] at hb
      simpa using hb
  · rintro (h | h)
    · subst h
      simp [Nat.testBit_two_pow_self]
    · simp [h]

theorem tdiv_ofNat (m n : Nat) : ((m : Int)).tdiv ((n : Int)) = ((m / n : Nat) : Int) := rfl

theorem tmod_ofNat (m n : Nat) : ((m : Int)).tmod ((n : Int)) = ((m % n : Nat) : Int) := rfl

/-- Setting bit `j` can only turn on bit `j`: any other set bit was already
set.  The length hypothesis says the byte slice covers the index space, which
holds for every bitfield the manager builds. -/
theorem HasPiece_SetPiece_true (bf : Bitfield) (j i : Int)
    (hlen : bf.size ≤ 8 * (bf.data.length : Int)) :
    (bf.SetPiece j).1.HasPiece i = true → i = j ∨ bf.HasPiece i = true := by
  intro hset
  unfold Bitfield.SetPiece at hset
  by_cases hjr : j < 0 ∨ j ≥ bf.size
  · right
    simpa [hjr] using hset
  · simp only [hjr, if_false] at hset
    unfold Bitfield.HasPiece at hset ⊢
    by_cases hir : i < 0 ∨ i ≥ bf.size
    · simp [hir] at hset
    · simp only [hir, if_false] at hset ⊢
      push_neg at hjr hir
      obtain ⟨hj0, hjs⟩ := hjr
      obtain ⟨hi0, his⟩ := hir
      set n := i.toNat with hn
      set m := j.toNat with hm
      have hi : i = Int.ofNat n := by simp [hn, Int.toNat_of_nonneg hi0]
      have hj : j = Int.ofNat m := by simp [hm, Int.toNat_of_nonneg hj0]
      have h8 : (8 : Int) = Int.ofNat 8 := rfl
      rw [hi, hj, h8] at hset ⊢
      simp only [tdiv_ofNat, tmod_ofNat, Int.ofNat_eq_coe, Int.toNat_natCast,
        decide_eq_true_eq] at hset ⊢
      have hmlen : m / 8 < bf.data.length := by omega
      rw [getD_set] at hset
      by_cases hbyte : m / 8 = n / 8
      · rw [if_pos ⟨hbyte, hmlen⟩] at hset
        rw [hbyte] at hset
        have hri : n % 8 < 8 := by omega
        have hrj : m % 8 < 8 := by omega
        have := (setByte_bit (bf.data.getD (n / 8) 0) (n % 8) (m % 8) hri hrj).mp hset
        rcases this with hr | hr
        · left
          have hnm : n = m := by omega
          exact_mod_cast hnm
        · exact Or.inr hr
      · rw [if_neg (by tauto)] at hset
        exact Or.inr hset

theorem HasPiece_NewBitfield (numPieces i : Int) :
    (NewBitfield numPieces).HasPiece i = false := by
  unfold NewBitfield Bitfield.HasPiece
  by_cases hir : i < 0 ∨ i ≥ numPieces
  · simp [hir]
  · have : (List.replicate ((numPieces + 7).tdiv 8).toNat 0).getD (i.tdiv 8).toNat 0 = 0 := by
      rcases Nat.lt_or_ge (i.tdiv 8).toNat ((numPieces + 7).tdiv 8).toNat with hlt | hge
      · simp [List.getD, List.getElem?_replicate, hlt]
      · simp [List.getD, List.getElem?_eq_none, hge]
    simp [hir, this]

/-! ## The reachable states of the piece manager and their invariant -/

/-- Expected digest of piece `i` given the constructor's digest table. -/
def expectedHash (hs : List (List Nat)) (i : Int) : List Nat := hs.getD i.toNat []

/-- Total number of bytes buffered in a download record's block map. -/
def blockSum (blocks : List (Int × List Nat)) : Nat :=
  (blocks.map (fun p => p.2.length)).sum

theorem blockSum_mapInsert (blocks : List (Int × List Nat)) (b : Int) (d : List Nat) :
    blockSum (mapInsert blocks b d) ≤ blockSum blocks + d.length := by
  induction blocks with
  | nil => simp [mapInsert, blockSum]
  | cons p rest ih =>
    obtain ⟨k, v⟩ := p
    simp only [mapInsert]
    by_cases hk : k = b
    · rw [if_pos hk]
      simp only [blockSum, List.map_cons, List.sum_cons]
      omega
    · rw [if_neg hk]
      simp only [blockSum, List.map_cons, List.sum_cons]
      have ih' : blockSum (mapInsert rest b d) ≤ blockSum rest + d.length := ih
      simp only [blockSum] at ih'
      omega

/-- States reachable from `NewPieceManager pl tl hs` by any sequence of the
public mutating operations, with digests computed by `h`. -/
inductive Reach (h : List Nat → List Nat) (pl tl : Int) (hs : List (List Nat)) :
    PieceManager → Prop where
  | init : Reach h pl tl hs (NewPieceManager pl tl hs)
  | startPiece {pm} (i : Int) :
      Reach h pl tl hs pm → Reach h pl tl hs (pm.StartPiece i).1
  | nextBlock {pm} (i : Int) :
      Reach h pl tl hs pm → Reach h pl tl hs (pm.GetNextBlockRequest i).2.1
  | addBlock {pm} (i b : Int) (d : List Nat) :
      Reach h pl tl hs pm → Reach h pl tl hs (pm.AddBlock h i b d).1
  | cancel {pm} (i : Int) :
      Reach h pl tl hs pm → Reach h pl tl hs (pm.CancelPiece i)

/-- The inductive invariant of the piece manager: a set bit is backed by a
retained byte sequence whose digest matched the expected digest; pending
records carry the right expected digest; `Downloaded` dominates the buffered
byte count. -/
structure Inv (h : List Nat → List Nat) (hs : List (List Nat)) (pm : PieceManager) :
    Prop where
  hashes_eq : pm.pieceHashes = hs
  numPieces_eq : pm.numPieces = (hs.length : Int)
  size_eq : pm.bitfield.size = pm.numPieces
  len_ge : pm.bitfield.size ≤ 8 * (pm.bitfield.data.length : Int)
  complete_sound : ∀ i, pm.bitfield.HasPiece i = true →
    ∃ data, mlookup pm.completePieces i = some data ∧ h data = expectedHash hs i
  pending_sound : ∀ i st, mlookup pm.pendingPieces i = some st →
    0 ≤ i ∧ i < pm.numPieces ∧ st.Hash = expectedHash hs i
  downloaded_ge : ∀ i st, mlookup pm.pendingPieces i = some st →
    (blockSum st.Blocks : Int) ≤ st.Downloaded

end Pieces

namespace Pieces

open BTC

theorem SetPiece_size (bf : Bitfield) (j : Int) : (bf.SetPiece j).1.size = bf.size := by
  unfold Bitfield.SetPiece
  split_ifs <;> rfl

theorem SetPiece_data_length (bf : Bitfield) (j : Int) :
    (bf.SetPiece j).1.data.length = bf.data.length := by
  unfold Bitfield.SetPiece
  split_ifs <;> simp

theorem inv_init (h : List Nat → List Nat) (pl tl : Int) (hs : List (List Nat)) :
    Inv h hs (NewPieceManager pl tl hs) := by
  refine ⟨rfl, rfl, rfl, ?_, ?_, ?_, ?_⟩
  · show ((hs.length : Int)) ≤ 8 * ((List.replicate (((hs.length : Int) + 7).tdiv 8).toNat 0).length : Int)
    rw [List.length_replicate]
    have hcast : ((hs.length : Int) + 7) = ((hs.length + 7 : Nat) : Int) := by push_cast; ring
    rw [hcast, show (8 : Int) = ((8 : Nat) : Int) from rfl, tdiv_ofNat, Int.toNat_natCast]
    exact_mod_cast (by omega : hs.length ≤ ((8:Nat)) * ((hs.length + 7) / 8))
  · intro i hbit
    rw [show (NewPieceManager pl tl hs).bitfield = NewBitfield (hs.length : Int) from rfl,
      HasPiece_NewBitfield] at hbit
    cases hbit
  · intro i st hst
    cases hst
  · intro i st hst
    cases hst

theorem inv_startPiece {h : List Nat → List Nat} {hs : List (List Nat)} {pm : PieceManager}
    (hinv : Inv h hs pm) (i : Int) : Inv h hs (pm.StartPiece i).1 := by
  unfold PieceManager.StartPiece
  split_ifs with h1 h2 h3
  · exact hinv
  · exact hinv
  · exact hinv
  · push_neg at h1
    refine ⟨hinv.hashes_eq, hinv.numPieces_eq, hinv.size_eq, hinv.len_ge, hinv.complete_sound,
      ?_, ?_⟩
    · intro j st hst
      rw [show ({ pm with pendingPieces := mapInsert pm.pendingPieces i _ } :
          PieceManager).pendingPieces = mapInsert pm.pendingPieces i _ from rfl,
        mlookup_mapInsert] at hst
      by_cases hij : i = j
      · subst hij
        rw [if_pos rfl] at hst
        cases hst
        refine ⟨h1.1, h1.2, ?_⟩
        rw [hinv.hashes_eq]
        rfl
      · rw [if_neg hij] at hst
        exact hinv.pending_sound j st hst
    · intro j st hst
      rw [show ({ pm with pendingPieces := mapInsert pm.pendingPieces i _ } :
          PieceManager).pendingPieces = mapInsert pm.pendingPieces i _ from rfl,
        mlookup_mapInsert] at hst
      by_cases hij : i = j
      · subst hij
        rw [if_pos rfl] at hst
        cases hst
        simp [blockSum]
      · rw [if_neg hij] at hst
        exact hinv.downloaded_ge j st hst

theorem inv_nextBlock {h : List Nat → List Nat} {hs : List (List Nat)} {pm : PieceManager}
    (hinv : Inv h hs pm) (i : Int) : Inv h hs (pm.GetNextBlockRequest i).2.1 := by
  unfold PieceManager.GetNextBlockRequest
  rcases hlook : mlookup pm.pendingPieces i with _ | piece
  · exact hinv
  · simp only
    rcases hfind : (gridOffsets piece.Length).find?
        (fun offset => !(mlookupD piece.Requested offset false) &&
          (mlookup piece.Blocks offset).isNone) with _ | offset
    · exact hinv
    · simp only
      refine ⟨hinv.hashes_eq, hinv.numPieces_eq, hinv.size_eq, hinv.len_ge,
        hinv.complete_sound, ?_, ?_⟩
      · intro j st hst
        rw [show ({ pm with pendingPieces := mapInsert pm.pendingPieces i _ } :
            PieceManager).pendingPieces = mapInsert pm.pendingPieces i _ from rfl,
          mlookup_mapInsert] at hst
        by_cases hij : i = j
        · subst hij
          rw [if_pos rfl] at hst
          cases hst
          exact hinv.pending_sound i piece hlook
        · rw [if_neg hij] at hst
          exact hinv.pending_sound j st hst
      · intro j st hst
        rw [show ({ pm with pendingPieces := mapInsert pm.pendingPieces i _ } :
            PieceManager).pendingPieces = mapInsert pm.pendingPieces i _ from rfl,
          mlookup_mapInsert] at hst
        by_cases hij : i = j
        · subst hij
          rw [if_pos rfl] at hst
          cases hst
          exact hinv.downloaded_ge i piece hlook
        · rw [if_neg hij] at hst
          exact hinv.downloaded_ge j st hst

/-- Helper: replacing only the pending map preserves the invariant, given the
two pending-map conditions for the new map. -/
theorem inv_update_pending {h : List Nat → List Nat} {hs : List (List Nat)} {pm : PieceManager}
    (hinv : Inv h hs pm) (pend' : List (Int × PieceState))
    (hp : ∀ j st, mlookup pend' j = some st →
      0 ≤ j ∧ j < pm.numPieces ∧ st.Hash = expectedHash hs j)
    (hd : ∀ j st, mlookup pend' j = some st → (blockSum st.Blocks : Int) ≤ st.Downloaded) :
    Inv h hs { pm with pendingPieces := pend' } :=
  ⟨hinv.hashes_eq, hinv.numPieces_eq, hinv.size_eq, hinv.len_ge, hinv.complete_sound, hp, hd⟩

/-- The state produced by a successful verification of piece `idx` with
assembled bytes `dataNew`. -/
def completedState (pm : PieceManager) (idx : Int) (dataNew : List Nat) : PieceManager :=
  { pm with
      bitfield := (pm.bitfield.SetPiece idx).1
      completePieces := mapInsert pm.completePieces idx dataNew
      pendingPieces := mapDelete pm.pendingPieces idx }

theorem inv_complete_state {h : List Nat → List Nat} {hs : List (List Nat)} {pm : PieceManager}
    (hinv : Inv h hs pm) (idx : Int) (dataNew : List Nat)
    (hdata : h dataNew = expectedHash hs idx) :
    Inv h hs (completedState pm idx dataNew) := by
  unfold completedState
  refine ⟨hinv.hashes_eq, hinv.numPieces_eq, ?_, ?_, ?_, ?_, ?_⟩
  · show (pm.bitfield.SetPiece idx).1.size = pm.numPieces
    rw [SetPiece_size]
    exact hinv.size_eq
  · show (pm.bitfield.SetPiece idx).1.size ≤ 8 * ((pm.bitfield.SetPiece idx).1.data.length : Int)
    rw [SetPiece_size, SetPiece_data_length]
    exact hinv.len_ge
  · intro j hbit
    replace hbit : (pm.bitfield.SetPiece idx).1.HasPiece j = true := hbit
    show ∃ data, mlookup (mapInsert pm.completePieces idx dataNew) j = some data ∧
      h data = expectedHash hs j
    rw [mlookup_mapInsert]
    by_cases hij : idx = j
    · subst hij
      rw [if_pos rfl]
      exact ⟨dataNew, rfl, hdata⟩
    · rw [if_neg hij]
      rcases HasPiece_SetPiece_true pm.bitfield idx j hinv.len_ge hbit with rfl | hold
      · exact absurd rfl hij
      · exact hinv.complete_sound j hold
  · intro j st hst
    replace hst : mlookup (mapDelete pm.pendingPieces idx) j = some st := hst
    rw [mlookup_mapDelete] at hst
    by_cases hij : idx = j
    · rw [if_pos hij] at hst
      cases hst
    · rw [if_neg hij] at hst
      exact hinv.pending_sound j st hst
  · intro j st hst
    replace hst : mlookup (mapDelete pm.pendingPieces idx) j = some st := hst
    rw [mlookup_mapDelete] at hst
    by_cases hij : idx = j
    · rw [if_pos hij] at hst
      cases hst
    · rw [if_neg hij] at hst
      exact hinv.downloaded_ge j st hst

theorem inv_completePiece {h : List Nat → List Nat} {hs : List (List Nat)} {pm : PieceManager}
    (hinv : Inv h hs pm) (i : Int) : Inv h hs (pm.completePiece h i).1 := by
  unfold PieceManager.completePiece
  rcases hlook : mlookup pm.pendingPieces i with _ | piece
  · exact hinv
  · simp only
    split_ifs with hhash
    · refine inv_update_pending hinv (mapDelete pm.pendingPieces i) ?_ ?_
      · intro j st hst
        rw [mlookup_mapDelete] at hst
        by_cases hij : i = j
        · rw [if_pos hij] at hst
          cases hst
        · rw [if_neg hij] at hst
          exact hinv.pending_sound j st hst
      · intro j st hst
        rw [mlookup_mapDelete] at hst
        by_cases hij : i = j
        · rw [if_pos hij] at hst
          cases hst
        · rw [if_neg hij] at hst
          exact hinv.downloaded_ge j st hst
    · push_neg at hhash
      obtain ⟨hi0, hilt, hHash⟩ := hinv.pending_sound i piece hlook
      exact inv_complete_state hinv i (assemblePiece piece.Length piece.Blocks)
        (by rw [hhash]; exact hHash)

theorem inv_addBlock {h : List Nat → List Nat} {hs : List (List Nat)} {pm : PieceManager}
    (hinv : Inv h hs pm) (i b : Int) (d : List Nat) : Inv h hs (pm.AddBlock h i b d).1 := by
  unfold PieceManager.AddBlock
  rcases hlook : mlookup pm.pendingPieces i with _ | piece
  · exact hinv
  · simp only
    obtain ⟨hi0, hilt, hHash⟩ := hinv.pending_sound i piece hlook
    have hdl := hinv.downloaded_ge i piece hlook
    have hinv' : Inv h hs { pm with pendingPieces := mapInsert pm.pendingPieces i { piece with Blocks := mapInsert piece.Blocks b d, Downloaded := piece.Downloaded + (d.length : Int) } } := by
      refine inv_update_pending hinv _ ?_ ?_
      · intro j st hst
        rw [mlookup_mapInsert] at hst
        by_cases hij : i = j
        · subst hij
          rw [if_pos rfl] at hst
          cases hst
          exact ⟨hi0, hilt, hHash⟩
        · rw [if_neg hij] at hst
          exact hinv.pending_sound j st hst
      · intro j st hst
        rw [mlookup_mapInsert] at hst
        by_cases hij : i = j
        · subst hij
          rw [if_pos rfl] at hst
          cases hst
          have hle := blockSum_mapInsert piece.Blocks b d
          show ((blockSum (mapInsert piece.Blocks b d) : Nat) : Int) ≤
            piece.Downloaded + (d.length : Int)
          have hle' : ((blockSum (mapInsert piece.Blocks b d) : Nat) : Int) ≤
              ((blockSum piece.Blocks + d.length : Nat) : Int) := by exact_mod_cast hle
          push_cast at hle' ⊢
          omega
        · rw [if_neg hij] at hst
          exact hinv.downloaded_ge j st hst
    split_ifs with h1 h2 h3
    · exact hinv
    · exact hinv
    · exact inv_completePiece hinv' i
    · exact hinv'

theorem inv_cancel {h : List Nat → List Nat} {hs : List (List Nat)} {pm : PieceManager}
    (hinv : Inv h hs pm) (i : Int) : Inv h hs (pm.CancelPiece i) := by
  unfold PieceManager.CancelPiece
  refine inv_update_pending hinv _ ?_ ?_
  · intro j st hst
    rw [mlookup_mapDelete] at hst
    by_cases hij : i = j
    · rw [if_pos hij] at hst
      cases hst
    · rw [if_neg hij] at hst
      exact hinv.pending_sound j st hst
  · intro j st hst
    rw [mlookup_mapDelete] at hst
    by_cases hij : i = j
    · rw [if_pos hij] at hst
      cases hst
    · rw [if_neg hij] at hst
      exact hinv.downloaded_ge j st hst

/-- Every reachable state of the piece manager satisfies the invariant. -/
theorem reach_inv {h : List Nat → List Nat} {pl tl : Int} {hs : List (List Nat)}
    {pm : PieceManager} (hr : Reach h pl tl hs pm) : Inv h hs pm := by
  induction hr with
  | init => exact inv_init h pl tl hs
  | startPiece i _ ih => exact inv_startPiece ih i
  | nextBlock i _ ih => exact inv_nextBlock ih i
  | addBlock i b d _ ih => exact inv_addBlock ih i b d
  | cancel i _ ih => exact inv_cancel ih i

/-- A concrete digest function used by witnesses: every byte string hashes
to `[7]`. -/
def demoHash : List Nat → List Nat := fun _ => [7]

/-- A concrete digest function used by witnesses where verification fails
against the digest table `[[7]]`. -/
def demoHashBad : List Nat → List Nat := fun _ => [9]

/-- C1: for every reachable state of the piece manager, bit `i` is set in our
bitfield only if some assembled byte sequence for piece `i` was retained whose
digest (computed by the hash function, SHA-1 in the client) equalled the
expected digest for piece `i`. -/
theorem c1_bit_set_only_after_verification
    (h : List Nat → List Nat) (pl tl : Int) (hs : List (List Nat)) (pm : PieceManager)
    (hr : Reach h pl tl hs pm) (i : Int) (hbit : pm.bitfield.HasPiece i = true) :
    ∃ data, mlookup pm.completePieces i = some data ∧ h data = expectedHash hs i :=
  (reach_inv hr).complete_sound i hbit

/-- Witness for C1: a piece manager for one 1-byte piece; after `StartPiece 0`
and a verifying `AddBlock`, bit 0 is set and the theorem applies. -/
theorem c1_witness :
    ∃ data,
      mlookup ((((NewPieceManager 1 1 [[7]]).StartPiece 0).1.AddBlock demoHash 0 0 [5]).1).completePieces 0 =
        some data ∧ demoHash data = expectedHash [[7]] 0 :=
  c1_bit_set_only_after_verification demoHash 1 1 [[7]] _
    (Reach.addBlock 0 0 [5] (Reach.startPiece 0 Reach.init)) 0 (by decide)

/-- C7 (amended): in every reachable state, for every download record, the
accumulated byte counter `Downloaded` is at least the sum of the lengths of
the buffered blocks; equality can fail when an offset is added twice. -/
theorem c7_downloaded_dominates_buffered
    (h : List Nat → List Nat) (pl tl : Int) (hs : List (List Nat)) (pm : PieceManager)
    (hr : Reach h pl tl hs pm) (i : Int) (st : PieceState)
    (hst : mlookup pm.pendingPieces i = some st) :
    (blockSum st.Blocks : Int) ≤ st.Downloaded :=
  (reach_inv hr).downloaded_ge i st hst

/-- The reachable state used to refute C7 as stated: a 2-byte piece receives
the same 1-byte block at offset 0 twice. -/
def pmDup : PieceManager :=
  ((((NewPieceManager 2 2 [[1]]).StartPiece 0).1.AddBlock demoHash 0 0 [5]).1.AddBlock
    demoHash 0 0 [5]).1

/-- Counterexample to C7 as stated: in the reachable state `pmDup` the
record's `Downloaded` is 2 while its buffered blocks sum to 1 byte, because
the duplicate `AddBlock` overwrote the buffer but incremented the counter. -/
theorem c7_counterexample :
    Reach demoHash 2 2 [[1]] pmDup ∧
    ∃ st, mlookup pmDup.pendingPieces 0 = some st ∧
      ((blockSum st.Blocks : Int) ≠ st.Downloaded) :=
  ⟨Reach.addBlock 0 0 [5] (Reach.addBlock 0 0 [5] (Reach.startPiece 0 Reach.init)),
   ⟨{ Index := 0, Length := 2, Hash := [1], Downloaded := 2, Blocks := [(0, [5])],
      Requested := [] }, by decide, by decide⟩⟩

/-- Witness for C7 (amended): in `pmDup` the inequality holds (1 ≤ 2). -/
theorem c7_witness :
    ∃ st, mlookup pmDup.pendingPieces 0 = some st ∧ (blockSum st.Blocks : Int) ≤ st.Downloaded :=
  ⟨{ Index := 0, Length := 2, Hash := [1], Downloaded := 2, Blocks := [(0, [5])],
     Requested := [] },
   by decide,
   c7_downloaded_dominates_buffered demoHash 2 2 [[1]] pmDup
     (Reach.addBlock 0 0 [5] (Reach.addBlock 0 0 [5] (Reach.startPiece 0 Reach.init)))
     0 _ (by decide)⟩

/-- C10: for every reachable state, `GetPieceData i` succeeds exactly when bit
`i` is set in our bitfield, and any returned byte sequence has the expected
digest for piece `i` under the digest function. -/
theorem c10_getPieceData_spec
    (h : List Nat → List Nat) (pl tl : Int) (hs : List (List Nat)) (pm : PieceManager)
    (hr : Reach h pl tl hs pm) (i : Int) :
    ((∃ d, pm.GetPieceData i = .ok d) ↔ pm.bitfield.HasPiece i = true) ∧
    (∀ d, pm.GetPieceData i = .ok d → h d = expectedHash hs i) := by
  have hinv := reach_inv hr
  constructor
  · constructor
    · rintro ⟨d, hd⟩
      unfold PieceManager.GetPieceData at hd
      by_cases hbit : pm.bitfield.HasPiece i
      · exact hbit
      · rw [if_pos (by simp [hbit])] at hd
        cases hd
    · intro hbit
      obtain ⟨data, hdata, hh⟩ := hinv.complete_sound i hbit
      refine ⟨data, ?_⟩
      unfold PieceManager.GetPieceData
      rw [if_neg (by simp [hbit]), hdata]
  · intro d hd
    unfold PieceManager.GetPieceData at hd
    by_cases hbit : pm.bitfield.HasPiece i
    · obtain ⟨data, hdata, hh⟩ := hinv.complete_sound i hbit
      rw [if_neg (by simp [hbit]), hdata] at hd
      cases hd
      exact hh
    · rw [if_pos (by simp [hbit])] at hd
      cases hd

/-- Witness for C10: the one-piece manager after a verifying `AddBlock`. -/
theorem c10_witness :
    ((∃ d, ((((NewPieceManager 1 1 [[7]]).StartPiece 0).1.AddBlock demoHash 0 0 [5]).1).GetPieceData 0 = .ok d) ↔
      ((((NewPieceManager 1 1 [[7]]).StartPiece 0).1.AddBlock demoHash 0 0 [5]).1).bitfield.HasPiece 0 = true) ∧
    (∀ d, ((((NewPieceManager 1 1 [[7]]).StartPiece 0).1.AddBlock demoHash 0 0 [5]).1).GetPieceData 0 = .ok d →
      demoHash d = expectedHash [[7]] 0) :=
  c10_getPieceData_spec demoHash 1 1 [[7]] _
    (Reach.addBlock 0 0 [5] (Reach.startPiece 0 Reach.init)) 0

/-- Membership in `GetMissingPieces` is exactly: in range and bit clear. -/
theorem mem_GetMissingPieces (bf : Bitfield) (i : Int) :
    i ∈ bf.GetMissingPieces ↔ 0 ≤ i ∧ i < bf.size ∧ bf.HasPiece i = false := by
  unfold Bitfield.GetMissingPieces
  rw [List.mem_filterMap]
  constructor
  · rintro ⟨n, hn, hif⟩
    rw [List.mem_range] at hn
    by_cases hbp : bf.HasPiece (n : Int)
    · simp [hbp] at hif
    · simp only [hbp, if_neg, Bool.false_eq_true, if_false, Option.some.injEq] at hif
      subst hif
      refine ⟨by exact_mod_cast Nat.zero_le n, by omega, by simpa using hbp⟩
  · rintro ⟨h0, hlt, hbp⟩
    refine ⟨i.toNat, ?_, ?_⟩
    · rw [List.mem_range]
      omega
    · rw [show ((i.toNat : Nat) : Int) = i from by omega]
      simp [hbp]

/-- C4 (amended): `AddBlock(i, offset, bytes)` rejects, without buffering,
exactly when the piece is not in progress, the offset is negative or at least
the piece length, or the block would extend past the piece's end; otherwise
the block is buffered (there is no alignment check), and when the piece is
not completed by this call the result is exactly the state with the block
recorded and no error. -/
theorem c4_addBlock_guard_spec (h : List Nat → List Nat) (pm : PieceManager)
    (i b : Int) (d : List Nat) :
    (mlookup pm.pendingPieces i = none →
      pm.AddBlock h i b d = (pm, some ("piece " ++ toString i ++ " not in progress"))) ∧
    (∀ piece, mlookup pm.pendingPieces i = some piece → (b < 0 ∨ b ≥ piece.Length) →
      pm.AddBlock h i b d =
        (pm, some ("invalid block offset " ++ toString b ++ " for piece " ++ toString i))) ∧
    (∀ piece, mlookup pm.pendingPieces i = some piece → ¬(b < 0 ∨ b ≥ piece.Length) →
      b + (d.length : Int) > piece.Length →
      pm.AddBlock h i b d = (pm, some "block extends beyond piece boundary")) ∧
    (∀ piece, mlookup pm.pendingPieces i = some piece → ¬(b < 0 ∨ b ≥ piece.Length) →
      ¬(b + (d.length : Int) > piece.Length) →
      isPieceComplete (addedPiece piece b d) = false →
      pm.AddBlock h i b d =
        ({ pm with pendingPieces := mapInsert pm.pendingPieces i (addedPiece piece b d) },
         none)) := by
  refine ⟨?_, ?_, ?_, ?_⟩
  · intro hnone
    simp only [PieceManager.AddBlock, hnone]
  · intro piece hlook hguard
    simp only [PieceManager.AddBlock, hlook]
    rw [if_pos hguard]
  · intro piece hlook hg1 hg2
    simp only [PieceManager.AddBlock, hlook]
    rw [if_neg hg1, if_pos hg2]
  · intro piece hlook hg1 hg2 hnc
    simp only [PieceManager.AddBlock, hlook]
    rw [if_neg hg1, if_neg hg2, if_neg (by simp [hnc])]

/-- Witness for C4 (amended): adding a block for a piece that was never
started is rejected with the not-in-progress error. -/
theorem c4_witness :
    (NewPieceManager 1 1 [[7]]).AddBlock demoHash 0 0 [5] =
      (NewPieceManager 1 1 [[7]], some ("piece " ++ toString (0 : Int) ++ " not in progress")) :=
  (c4_addBlock_guard_spec demoHash (NewPieceManager 1 1 [[7]]) 0 0 [5]).1 (by decide)

/-- Counterexample to C4 as stated: offset 1 is not a multiple of the
16384-byte block size, yet `AddBlock` returns no error and buffers the block
— the code performs no alignment check. -/
theorem c4_counterexample :
    ((1 : Int).tmod BlockSize ≠ 0) ∧
    ((((NewPieceManager 2 2 [[1]]).StartPiece 0).1.AddBlock demoHash 0 1 [9]).2 = none) ∧
    (∃ st, mlookup ((((NewPieceManager 2 2 [[1]]).StartPiece 0).1.AddBlock
        demoHash 0 1 [9]).1).pendingPieces 0 = some st ∧ mlookup st.Blocks 1 = some [9]) :=
  ⟨by decide, by decide,
   ⟨{ Index := 0, Length := 2, Hash := [1], Downloaded := 1, Blocks := [(1, [9])],
      Requested := [] }, by decide, by decide⟩⟩

/-- Go `completePiece` on a hash mismatch: the record is destroyed and a
verification-failed error is returned. -/
theorem completePiece_mismatch (h : List Nat → List Nat) (pm : PieceManager)
    (i : Int) (piece : PieceState)
    (hlook : mlookup pm.pendingPieces i = some piece)
    (hmis : h (assemblePiece piece.Length piece.Blocks) ≠ piece.Hash) :
    pm.completePiece h i =
      ({ pm with pendingPieces := mapDelete pm.pendingPieces i },
       some ("piece " ++ toString i ++ " hash verification failed")) := by
  simp only [PieceManager.completePiece, hlook]
  rw [if_pos hmis]

/-- C3: when the last missing block of an in-progress piece arrives and the
digest of the assembled bytes differs from the expected digest, `AddBlock`
destroys the record, returns the verification-failed error, leaves the
bitfield unchanged, the piece is again in `GetMissingPieces`, and
`StartPiece` succeeds again. -/
theorem c3_hash_mismatch_recycles
    (h : List Nat → List Nat) (pl tl : Int) (hs : List (List Nat)) (pm : PieceManager)
    (hr : Reach h pl tl hs pm) (i b : Int) (d : List Nat) (piece : PieceState)
    (hlook : mlookup pm.pendingPieces i = some piece)
    (hbit : pm.bitfield.HasPiece i = false)
    (hg1 : ¬(b < 0 ∨ b ≥ piece.Length))
    (hg2 : ¬(b + (d.length : Int) > piece.Length))
    (hcomp : isPieceComplete (addedPiece piece b d) = true)
    (hmis : h (assemblePiece piece.Length (mapInsert piece.Blocks b d)) ≠ piece.Hash) :
    (pm.AddBlock h i b d).2 = some ("piece " ++ toString i ++ " hash verification failed") ∧
    mlookup (pm.AddBlock h i b d).1.pendingPieces i = none ∧
    (pm.AddBlock h i b d).1.bitfield = pm.bitfield ∧
    i ∈ (pm.AddBlock h i b d).1.GetMissingPieces ∧
    ((pm.AddBlock h i b d).1.StartPiece i).2 = none := by
  have hinv := reach_inv hr
  obtain ⟨hi0, hilt, hHash⟩ := hinv.pending_sound i piece hlook
  have hres : pm.AddBlock h i b d =
      ({ pm with pendingPieces :=
          mapDelete (mapInsert pm.pendingPieces i (addedPiece piece b d)) i },
       some ("piece " ++ toString i ++ " hash verification failed")) := by
    simp only [PieceManager.AddBlock, hlook]
    rw [if_neg hg1, if_neg hg2, if_pos hcomp]
    exact completePiece_mismatch h _ i _ (by rw [mlookup_mapInsert, if_pos rfl]) hmis
  have hlooknone : mlookup (pm.AddBlock h i b d).1.pendingPieces i = none := by
    rw [hres]
    show mlookup (mapDelete (mapInsert pm.pendingPieces i _) i) i = none
    rw [mlookup_mapDelete, if_pos rfl]
  have hbf : (pm.AddBlock h i b d).1.bitfield = pm.bitfield := by
    rw [hres]
  refine ⟨by rw [hres], hlooknone, hbf, ?_, ?_⟩
  · show i ∈ (pm.AddBlock h i b d).1.bitfield.GetMissingPieces
    rw [mem_GetMissingPieces, hbf, hinv.size_eq]
    exact ⟨hi0, hilt, hbit⟩
  · have hnum : (pm.AddBlock h i b d).1.numPieces = pm.numPieces := by rw [hres]
    unfold PieceManager.StartPiece
    rw [if_neg (by rw [hnum]; push_neg; exact ⟨hi0, hilt⟩),
      if_neg (by rw [hbf, hbit]; simp),
      if_neg (by rw [hlooknone]; simp)]

/-- Witness for C3: a one-block piece receives its final block under a digest
function that mismatches the expected digest. -/
theorem c3_witness :
    (((NewPieceManager 1 1 [[7]]).StartPiece 0).1.AddBlock demoHashBad 0 0 [5]).2 =
      some ("piece " ++ toString (0 : Int) ++ " hash verification failed") ∧
    mlookup ((((NewPieceManager 1 1 [[7]]).StartPiece 0).1.AddBlock
      demoHashBad 0 0 [5]).1).pendingPieces 0 = none ∧
    ((((NewPieceManager 1 1 [[7]]).StartPiece 0).1.AddBlock demoHashBad 0 0 [5]).1).bitfield =
      (((NewPieceManager 1 1 [[7]]).StartPiece 0).1).bitfield ∧
    (0 : Int) ∈ ((((NewPieceManager 1 1 [[7]]).StartPiece 0).1.AddBlock
      demoHashBad 0 0 [5]).1).GetMissingPieces ∧
    (((((NewPieceManager 1 1 [[7]]).StartPiece 0).1.AddBlock
      demoHashBad 0 0 [5]).1).StartPiece 0).2 = none :=
  c3_hash_mismatch_recycles demoHashBad 1 1 [[7]] _ (Reach.startPiece 0 Reach.init) 0 0 [5]
    { Index := 0, Length := 1, Hash := [7], Downloaded := 0, Blocks := [], Requested := [] }
    (by decide) (by decide) (by decide) (by decide) (by decide) (by decide)

/-- A successful `find?` splits its list into a failing prefix, the found
element, and a suffix. -/
theorem find?_split {α : Type} (p : α → Bool) (l : List α) (a : α)
    (hfind : l.find? p = some a) :
    p a = true ∧ ∃ l₁ l₂, l = l₁ ++ a :: l₂ ∧ ∀ b ∈ l₁, p b = false := by
  induction l with
  | nil => cases hfind
  | cons x xs ih =>
    cases hx : p x with
    | true =>
      have hxa : some x = some a := by rw [← hfind]; simp [List.find?, hx]
      injection hxa with heq
      subst heq
      exact ⟨hx, [], xs, rfl, by intro b hb; cases hb⟩
    | false =>
      have hfind' : xs.find? p = some a := by rw [← hfind]; simp [List.find?, hx]
      obtain ⟨hpa, l₁, l₂, heq, hl₁⟩ := ih hfind'
      refine ⟨hpa, x :: l₁, l₂, by simp [heq], ?_⟩
      intro b hb
      rcases List.mem_cons.mp hb with rfl | hb'
      · exact hx
      · exact hl₁ b hb'

/-- The block grid of a piece is strictly increasing. -/
theorem gridOffsets_pairwise (length : Int) : (gridOffsets length).Pairwise (· < ·) := by
  unfold gridOffsets
  have hr := List.pairwise_lt_range ((length + BlockSize - 1).tdiv BlockSize).toNat
  exact hr.map _ (fun a b hab => by simp only [BlockSize]; omega)

/-- In a strictly increasing split list, any member smaller than the split
point lies in the prefix. -/
theorem mem_prefix_of_lt {l₁ l₂ : List Int} {a off : Int}
    (hp : (l₁ ++ a :: l₂).Pairwise (· < ·)) (hmem : off ∈ l₁ ++ a :: l₂) (hlt : off < a) :
    off ∈ l₁ := by
  rcases List.mem_append.mp hmem with hm | hm
  · exact hm
  · rcases List.mem_cons.mp hm with rfl | hm'
    · exact absurd hlt (lt_irrefl _)
    · have := ((List.pairwise_append.mp hp).2.1)
      have ha := (List.pairwise_cons.mp this).1 off hm'
      omega

/-- The requested block length is `min(BlockSize, L - offset)`. -/
theorem blockLength_eq_min (L off : Int) :
    (if off + BlockSize > L then L - off else BlockSize) = min BlockSize (L - off) := by
  rw [min_def]
  simp only [BlockSize]
  split_ifs <;> omega

/-- C5: for an in-progress piece, `GetNextBlockRequest` returns the lowest
grid offset that is neither buffered nor requested (with length
`min(BlockSize, length - offset)`), marking it requested; it returns `none`
with no error and no state change exactly when every grid offset is buffered
or requested. -/
theorem c5_getNextBlockRequest_spec (pm : PieceManager) (i : Int) (piece : PieceState)
    (hlook : mlookup pm.pendingPieces i = some piece) :
    (∀ req pm' e, pm.GetNextBlockRequest i = (some req, pm', e) →
      e = none ∧ req.PieceIndex = i ∧ req.Begin ∈ gridOffsets piece.Length ∧
      mlookupD piece.Requested req.Begin false = false ∧
      mlookup piece.Blocks req.Begin = none ∧
      (∀ off ∈ gridOffsets piece.Length, off < req.Begin →
        mlookupD piece.Requested off false = true ∨ (mlookup piece.Blocks off).isSome = true) ∧
      req.Length = min BlockSize (piece.Length - req.Begin) ∧
      pm' = { pm with pendingPieces := mapInsert pm.pendingPieces i (requestedPiece piece req.Begin) }) ∧
    (∀ pm' e, pm.GetNextBlockRequest i = (none, pm', e) →
      e = none ∧ pm' = pm ∧
      ∀ off ∈ gridOffsets piece.Length,
        mlookupD piece.Requested off false = true ∨ (mlookup piece.Blocks off).isSome = true) := by
  constructor
  · intro req pm' e hcall
    simp only [PieceManager.GetNextBlockRequest, hlook] at hcall
    rcases hfind : (gridOffsets piece.Length).find?
        (fun offset => !(mlookupD piece.Requested offset false) &&
          (mlookup piece.Blocks offset).isNone) with _ | offset
    · rw [hfind] at hcall
      cases hcall
    · rw [hfind] at hcall
      obtain ⟨hpa, l₁, l₂, heq, hl₁⟩ := find?_split _ _ _ hfind
      rw [Prod.mk.injEq, Prod.mk.injEq] at hcall
      obtain ⟨h1, h2, h3⟩ := hcall
      injection h1 with h1
      subst h1
      simp only [Bool.and_eq_true, Bool.not_eq_true', Option.isNone_iff_eq_none] at hpa
      obtain ⟨hreq, hblk⟩ := hpa
      refine ⟨h3.symm, rfl, ?_, hreq, hblk, ?_, ?_, h2.symm⟩
      · rw [heq]
        exact List.mem_append_right _ (List.mem_cons_self _ _)
      · intro off hoff hofflt
        have hmem₁ : off ∈ l₁ :=
          mem_prefix_of_lt (heq ▸ gridOffsets_pairwise piece.Length) (heq ▸ hoff) hofflt
        have hpoff := hl₁ off hmem₁
        rcases Bool.and_eq_false_iff.mp hpoff with hr | hb
        · left
          simpa using hr
        · right
          rcases hsome : mlookup piece.Blocks off with _ | v
          · rw [hsome] at hb
            simp at hb
          · simp
      · exact blockLength_eq_min piece.Length offset
  · intro pm' e hcall
    simp only [PieceManager.GetNextBlockRequest, hlook] at hcall
    rcases hfind : (gridOffsets piece.Length).find?
        (fun offset => !(mlookupD piece.Requested offset false) &&
          (mlookup piece.Blocks offset).isNone) with _ | offset
    · rw [hfind] at hcall
      rw [Prod.mk.injEq, Prod.mk.injEq] at hcall
      obtain ⟨h1, h2, h3⟩ := hcall
      refine ⟨h3.symm, h2.symm, ?_⟩
      intro off hoff
      have hnp := List.find?_eq_none.mp hfind off hoff
      have hfalse : (!(mlookupD piece.Requested off false) &&
          (mlookup piece.Blocks off).isNone) = false := by
        cases hval : (!(mlookupD piece.Requested off false) &&
            (mlookup piece.Blocks off).isNone)
        · rfl
        · exact absurd hval hnp
      rcases Bool.and_eq_false_iff.mp hfalse with hr | hb
      · left
        simpa using hr
      · right
        rcases hsome : mlookup piece.Blocks off with _ | v
        · rw [hsome] at hb
          simp at hb
        · simp
    · rw [hfind] at hcall
      cases hcall

/-- A one-piece manager (piece length 1) with piece 0 started: concrete input
for the C5 witness. -/
def pmC5 : PieceManager := ((NewPieceManager 1 1 [[7]]).StartPiece 0).1

def pieceC5 : PieceState :=
  { Index := 0, Length := 1, Hash := [7], Downloaded := 0, Blocks := [], Requested := [] }

def reqC5 : BlockRequest := { PieceIndex := 0, Begin := 0, Length := 1 }

theorem c5_witness :
    mlookup pmC5.pendingPieces 0 = some pieceC5 ∧
    (none : Option String) = none ∧ reqC5.PieceIndex = 0 ∧
    reqC5.Begin ∈ gridOffsets pieceC5.Length ∧
    mlookupD pieceC5.Requested reqC5.Begin false = false ∧
    mlookup pieceC5.Blocks reqC5.Begin = none ∧
    (∀ off ∈ gridOffsets pieceC5.Length, off < reqC5.Begin →
      mlookupD pieceC5.Requested off false = true ∨
        (mlookup pieceC5.Blocks off).isSome = true) ∧
    reqC5.Length = min Pieces.BlockSize (pieceC5.Length - reqC5.Begin) ∧
    (pmC5.GetNextBlockRequest 0).2.1 =
      { pmC5 with pendingPieces := mapInsert pmC5.pendingPieces 0 (requestedPiece pieceC5 reqC5.Begin) } :=
  ⟨by decide,
    (c5_getNextBlockRequest_spec pmC5 0 pieceC5 (by decide)).1 reqC5
      (pmC5.GetNextBlockRequest 0).2.1 none (by decide)⟩

end Pieces

namespace Bencode

open BTC

/-! ## Bencode codec (package `bencode`): model of the value space

The Go codec passes `interface` trees: `int64`, `string`/`[]byte`,
`[]interface`, `map[string]interface`.  `BValue` is that sum.  A Go map has
no intrinsic order; a dictionary is modelled as an association list, and a
*valid* value (`ValidB`) keeps its keys strictly ascending — the canonical
representation of the map.  Byte strings are `List Nat`. -/

inductive BValue where
  | int (n : Int)
  | str (s : List Nat)
  | list (xs : List BValue)
  | dict (entries : List (List Nat × BValue))

/-- Decimal digit test, byte values 48..57 (Go `b >= '0' && b <= '9'`). -/
def isDigit (b : Nat) : Bool := decide (48 ≤ b ∧ b ≤ 57)

/-- Decimal digits of `n`, most significant first, as byte values (the digits
emitted by Go `strconv.FormatInt`/`Itoa` for a non-negative number). -/
def natToDigits (n : Nat) : List Nat :=
  if h : n < 10 then [n + 48]
  else natToDigits (n / 10) ++ [n % 10 + 48]
termination_by n
decreasing_by exact Nat.div_lt_self (by omega) (by omega)

/-- Go `strconv.FormatInt(v, 10)` as bytes. -/
def formatInt (v : Int) : List Nat :=
  if v < 0 then 45 :: natToDigits (-v).toNat else natToDigits v.toNat

/-- Go `encodeString`: `<decimal length>:<raw bytes>`. -/
def encodeString (s : List Nat) : List Nat :=
  natToDigits s.length ++ 58 :: s

/-- Go byte-string comparison `a < b` (lexicographic by raw bytes). -/
def lexLt : List Nat → List Nat → Bool
  | [], [] => false
  | [], _ :: _ => true
  | _ :: _, [] => false
  | a :: as, b :: bs => if a < b then true else if b < a then false else lexLt as bs

/-- Go byte-string comparison `a <= b`. -/
def lexLe (a b : List Nat) : Bool := !(lexLt b a)

/-- One step of the comparison sort Go's `sort.Slice` performs on the
dictionary keys. -/
def insertEntry (e : List Nat × BValue) : List (List Nat × BValue) → List (List Nat × BValue)
  | [] => [e]
  | f :: fs => if lexLt e.1 f.1 then e :: f :: fs else f :: insertEntry e fs

/-- Sort the dictionary entries by key ascending, as Go `encodeDictionary`
does before emission (any comparison sort agrees on distinct keys). -/
def sortKeys : List (List Nat × BValue) → List (List Nat × BValue)
  | [] => []
  | e :: es => insertEntry e (sortKeys es)

theorem sizeOf_insertEntry (e : List Nat × BValue) (es : List (List Nat × BValue)) :
    sizeOf (insertEntry e es) = 1 + sizeOf e + sizeOf es := by
  induction es with
  | nil =>
    simp only [insertEntry, List.cons.sizeOf_spec, List.nil.sizeOf_spec]
  | cons f fs ih =>
    rw [show insertEntry e (f :: fs) =
      if lexLt e.1 f.1 then e :: f :: fs else f :: insertEntry e fs from rfl]
    split_ifs <;> (simp only [List.cons.sizeOf_spec, ih]; try omega)

theorem sizeOf_sortKeys (es : List (List Nat × BValue)) :
    sizeOf (sortKeys es) = sizeOf es := by
  induction es with
  | nil => rfl
  | cons e es ih =>
    show sizeOf (insertEntry e (sortKeys es)) = sizeOf (e :: es)
    rw [sizeOf_insertEntry, ih]
    simp only [List.cons.sizeOf_spec]

mutual

/-- Go `encodeValue` restricted to the four canonical kinds (the reflection
dispatch resolves to these cases for the values the codec produces). -/
def encodeValue : BValue → List Nat
  | .int n => 105 :: (formatInt n ++ [101])
  | .str s => encodeString s
  | .list xs => 108 :: (encodeList xs ++ [101])
  | .dict es => 100 :: (encodeEntries (sortKeys es) ++ [101])
termination_by v => sizeOf v
decreasing_by
  all_goals simp_wf
  all_goals (rw [sizeOf_sortKeys]; omega)

/-- Go `encodeList`'s element loop. -/
def encodeList : List BValue → List Nat
  | [] => []
  | x :: xs => encodeValue x ++ encodeList xs
termination_by xs => sizeOf xs
decreasing_by
  all_goals simp_wf
  all_goals omega

/-- Go `encodeDictionary`'s key loop body: emit each key then its value. -/
def encodeEntries : List (List Nat × BValue) → List Nat
  | [] => []
  | (k, v) :: es => encodeString k ++ encodeValue v ++ encodeEntries es
termination_by es => sizeOf es
decreasing_by
  all_goals simp_wf
  all_goals omega

end

/-- Go `Encode` (the buffered writer's flush is identity in the model). -/
def Encode (v : BValue) : List Nat := encodeValue v

/-- Strictly ascending adjacent keys (raw-byte lexicographic). -/
def keysSortedB : List (List Nat × BValue) → Bool
  | [] => true
  | [_] => true
  | e :: f :: es => lexLt e.1 f.1 && keysSortedB (f :: es)

mutual

/-- A canonical codec value: integers fit in `int64`, byte-string lengths fit
in `int64` (they are Go slices), and dictionary keys are strictly ascending
(the canonical association-list representation of a Go map). -/
def ValidB : BValue → Bool
  | .int n => decide (-(2 ^ 63) ≤ n ∧ n ≤ 2 ^ 63 - 1)
  | .str s => decide (s.length ≤ 2 ^ 63 - 1)
  | .list xs => allValidB xs
  | .dict es => keysSortedB es && entriesValidB es
termination_by v => sizeOf v
decreasing_by
  all_goals simp_wf

/-- All list elements valid. -/
def allValidB : List BValue → Bool
  | [] => true
  | x :: xs => ValidB x && allValidB xs
termination_by xs => sizeOf xs
decreasing_by
  all_goals simp_wf
  all_goals omega

/-- All dictionary entries valid: key length in `int64`, value valid. -/
def entriesValidB : List (List Nat × BValue) → Bool
  | [] => true
  | (k, v) :: es => decide (k.length ≤ 2 ^ 63 - 1) && ValidB v && entriesValidB es
termination_by es => sizeOf es
decreasing_by
  all_goals simp_wf
  all_goals omega

end

/-! ### Decoder -/

/-- Go `decodeInteger`'s read loop: collect bytes until `'e'` (101), or fail
at end of stream. -/
def readUntilE : List Nat → Option (List Nat × List Nat)
  | [] => none
  | b :: rest =>
    if b = 101 then some ([], rest)
    else
      match readUntilE rest with
      | some (acc, r) => some (b :: acc, r)
      | none => none

/-- Value of a digit string, most significant first. -/
def digitsToNat (ds : List Nat) : Nat :=
  ds.foldl (fun acc d => acc * 10 + (d - 48)) 0

/-- Sign handling of Go `strconv.ParseInt`. -/
def splitSign (s : List Nat) : Bool × List Nat :=
  match s with
  | [] => (false, [])
  | b :: t => if b = 45 then (true, t) else if b = 43 then (false, t) else (false, b :: t)

/-- Go `strconv.ParseInt(string(s), 10, 64)`: optional sign, decimal digits,
64-bit range check; `none` is a parse error. -/
def parseIntGo (s : List Nat) : Option Int :=
  if s = [] then none
  else
    let neg := (splitSign s).1
    let ds := (splitSign s).2
    if ds = [] then none
    else if ds.all isDigit then
      if neg then
        if digitsToNat ds ≤ 2 ^ 63 then some (-(digitsToNat ds : Int)) else none
      else
        if digitsToNat ds ≤ 2 ^ 63 - 1 then some ((digitsToNat ds : Int)) else none
    else none

/-- Go `decodeInteger` (after the `'i'` tag was consumed). -/
def decodeIntegerM (input : List Nat) : Except String (Int × List Nat) :=
  match readUntilE input with
  | none => .error "failed to read integer"
  | some (result, rest) =>
    if result.length = 0 then .error "empty integer"
    else if result.length > 1 ∧ result.headD 0 = 48 then .error "invalid integer: leading zero"
    else if result.length = 2 ∧ result.headD 0 = 45 ∧ result.getD 1 0 = 48 then
      .error "invalid integer: negative zero"
    else
      match parseIntGo result with
      | some num => .ok (num, rest)
      | none => .error "failed to parse integer"

/-- Go `decodeString`'s length loop: digits until `':'` (58); a non-digit
before the colon, or end of stream, is an error. -/
def readLengthBytes : List Nat → Except String (List Nat × List Nat)
  | [] => .error "failed to read string length"
  | b :: rest =>
    if b = 58 then .ok ([], rest)
    else if b < 48 ∨ b > 57 then .error "invalid string length character"
    else
      match readLengthBytes rest with
      | .ok (ds, r) => .ok (b :: ds, r)
      | .error e => .error e

/-- Go `decodeString`: parse the length, then read exactly that many bytes
(`io.ReadFull`; a short stream is an error). -/
def decodeStringM (input : List Nat) : Except String (List Nat × List Nat) :=
  match readLengthBytes input with
  | .error e => .error e
  | .ok (lengthBytes, rest) =>
    if lengthBytes = [] then .error "empty string length"
    else
      match parseIntGo lengthBytes with
      | none => .error "failed to parse string length"
      | some length =>
        if length < 0 then .error "negative string length"
        else if rest.length < length.toNat then .error "failed to read string data"
        else .ok (rest.take length.toNat, rest.drop length.toNat)

mutual

/-- Go `decodeValue`: one-byte-lookahead dispatch on `'i'`/`'l'`/`'d'`/digit.
The fuel argument only bounds the recursion depth; `Decode` supplies more
fuel than any parse can consume, so the model is total and agrees with the
Go recursion. -/
def decodeValueF : Nat → List Nat → Except String (BValue × List Nat)
  | 0, _ => .error "out of fuel"
  | fuel + 1, input =>
    match input with
    | [] => .error "failed to read byte"
    | b :: rest =>
      if b = 105 then
        match decodeIntegerM rest with
        | .ok (n, r) => .ok (.int n, r)
        | .error e => .error e
      else if b = 108 then decodeListF fuel [] rest
      else if b = 100 then decodeDictF fuel [] [] rest
      else if isDigit b then
        match decodeStringM (b :: rest) with
        | .ok (s, r) => .ok (.str s, r)
        | .error e => .error e
      else .error "invalid bencode data"

/-- Go `decodeList`'s loop: `'e'` (101) ends the list, otherwise decode an
element and append it. -/
def decodeListF : Nat → List BValue → List Nat → Except String (BValue × List Nat)
  | 0, _, _ => .error "out of fuel"
  | fuel + 1, acc, input =>
    match input with
    | [] => .error "failed to read list"
    | b :: rest =>
      if b = 101 then .ok (.list acc, rest)
      else
        match decodeValueF fuel (b :: rest) with
        | .ok (v, r) => decodeListF fuel (acc ++ [v]) r
        | .error e => .error e

/-- Go `decodeDictionary`'s loop: `'e'` ends the dictionary; otherwise decode
a key string, reject it if it is `<=` the previous key *and* the previous key
is non-empty (the Go check `key <= lastKey && lastKey != ""`), then decode
the value and store it. -/
def decodeDictF : Nat → List (List Nat × BValue) → List Nat → List Nat →
    Except String (BValue × List Nat)
  | 0, _, _, _ => .error "out of fuel"
  | fuel + 1, dict, lastKey, input =>
    match input with
    | [] => .error "failed to read dictionary"
    | b :: rest =>
      if b = 101 then .ok (.dict dict, rest)
      else
        match decodeStringM (b :: rest) with
        | .error e => .error e
        | .ok (key, r) =>
          if lexLe key lastKey ∧ lastKey ≠ [] then
            .error "dictionary keys not in sorted order"
          else
            match decodeValueF fuel r with
            | .error e => .error e
            | .ok (v, r2) => decodeDictF fuel (mapInsert dict key v) key r2

end

/-- Go `Decode`: decode one value from the stream.  The fuel `length + 1`
exceeds the recursion depth of any successful parse (each level of the
recursion consumes at least one byte before descending). -/
def Decode (input : List Nat) : Except String BValue :=
  (decodeValueF (input.length + 1) input).map (fun p => p.1)

/-! ### Decimal round-trip lemmas -/

theorem natToDigits_ne_nil (n : Nat) : natToDigits n ≠ [] := by
  unfold natToDigits
  split_ifs <;> simp

theorem natToDigits_digits (n : Nat) : ∀ d ∈ natToDigits n, 48 ≤ d ∧ d ≤ 57 := by
  induction n using Nat.strong_induction_on with
  | _ n ih =>
    unfold natToDigits
    split_ifs with h
    · intro d hd
      simp only [List.mem_singleton] at hd
      omega
    · intro d hd
      rcases List.mem_append.mp hd with hmem | hmem
      · exact ih (n / 10) (Nat.div_lt_self (by omega) (by omega)) d hmem
      · simp only [List.mem_singleton] at hmem
        have : n % 10 < 10 := Nat.mod_lt _ (by omega)
        omega

theorem natToDigits_head_ne_48 (n : Nat) (hn : 1 ≤ n) :
    (natToDigits n).headD 0 ≠ 48 := by
  induction n using Nat.strong_induction_on with
  | _ n ih =>
    unfold natToDigits
    split_ifs with h
    · simp only [List.headD_cons]
      omega
    · have hne := natToDigits_ne_nil (n / 10)
      have hdiv : 1 ≤ n / 10 := Nat.one_le_div_iff (by omega) |>.mpr (by omega)
      have := ih (n / 10) (Nat.div_lt_self (by omega) (by omega)) hdiv
      rcases hcons : natToDigits (n / 10) with _ | ⟨d, ds⟩
      · exact absurd hcons hne
      · rw [hcons] at this
        simp only [List.headD_cons] at this
        simp only [hcons, List.cons_append, List.headD_cons]
        exact this

theorem digitsToNat_append (ds : List Nat) (d : Nat) :
    digitsToNat (ds ++ [d]) = 10 * digitsToNat ds + (d - 48) := by
  unfold digitsToNat
  rw [List.foldl_append]
  simp [Nat.mul_comm]

theorem digitsToNat_natToDigits (n : Nat) : digitsToNat (natToDigits n) = n := by
  induction n using Nat.strong_induction_on with
  | _ n ih =>
    unfold natToDigits
    split_ifs with h
    · simp [digitsToNat]
    · rw [digitsToNat_append, ih (n / 10) (Nat.div_lt_self (by omega) (by omega))]
      omega

theorem splitSign_no_sign (s : List Nat) (hs : s.headD 0 ≠ 45) (hs' : s.headD 0 ≠ 43) :
    splitSign s = (false, s) := by
  cases s with
  | nil => rfl
  | cons b t =>
    simp only [List.headD_cons] at hs hs'
    simp [splitSign, hs, hs']

theorem parseIntGo_digits (ds : List Nat) (hds : ds ≠ [])
    (hdig : ∀ d ∈ ds, 48 ≤ d ∧ d ≤ 57) (hbound : digitsToNat ds ≤ 2 ^ 63 - 1) :
    parseIntGo ds = some ((digitsToNat ds : Nat) : Int) := by
  have hhead : ds.headD 0 ≠ 45 ∧ ds.headD 0 ≠ 43 := by
    cases ds with
    | nil => simp at hds
    | cons b t =>
      have := hdig b (List.mem_cons_self b t)
      simp only [List.headD_cons]
      omega
  have hsplit := splitSign_no_sign ds hhead.1 hhead.2
  have hall : ds.all isDigit = true := by
    rw [List.all_eq_true]
    intro d hd
    have := hdig d hd
    simp only [isDigit, decide_eq_true_eq]
    omega
  simp only [parseIntGo, hsplit, if_neg hds, hall, if_true]
  rw [if_neg (by simp), if_pos hbound]

theorem parseIntGo_formatInt (v : Int) (h1 : -(2 ^ 63) ≤ v) (h2 : v ≤ 2 ^ 63 - 1) :
    parseIntGo (formatInt v) = some v := by
  unfold formatInt
  split_ifs with hv
  · have hne := natToDigits_ne_nil (-v).toNat
    have hsplit : splitSign (45 :: natToDigits (-v).toNat) = (true, natToDigits (-v).toNat) := by
      simp [splitSign]
    have hall : (natToDigits (-v).toNat).all isDigit = true := by
      rw [List.all_eq_true]
      intro d hd
      have := natToDigits_digits (-v).toNat d hd
      simp only [isDigit, decide_eq_true_eq]
      omega
    simp only [parseIntGo, hsplit, hall, if_true]
    rw [if_neg (by simp), if_neg hne, if_pos (by rw [digitsToNat_natToDigits]; omega)]
    rw [digitsToNat_natToDigits]
    congr 1
    omega
  · push_neg at hv
    have := parseIntGo_digits (natToDigits v.toNat) (natToDigits_ne_nil _)
      (natToDigits_digits _) (by rw [digitsToNat_natToDigits]; omega)
    rw [this, digitsToNat_natToDigits]
    congr 1
    omega

theorem headD_mem {α : Type} (l : List α) (d : α) (h : l ≠ []) : l.headD d ∈ l := by
  cases l with
  | nil => exact absurd rfl h
  | cons a as => simp

theorem natToDigits_length_gt_one (n : Nat) (h : 1 < (natToDigits n).length) : 10 ≤ n := by
  by_contra hlt
  push_neg at hlt
  unfold natToDigits at h
  rw [dif_pos hlt] at h
  simp at h

theorem formatInt_ne_e (v : Int) : ∀ b ∈ formatInt v, b ≠ 101 := by
  unfold formatInt
  split_ifs
  · intro b hb
    rcases List.mem_cons.mp hb with rfl | hb'
    · omega
    · have := natToDigits_digits _ b hb'
      omega
  · intro b hb
    have := natToDigits_digits _ b hb
    omega

theorem formatInt_ne_nil (v : Int) : formatInt v ≠ [] := by
  unfold formatInt
  split_ifs
  · simp
  · exact natToDigits_ne_nil _

theorem readUntilE_append (s rest : List Nat) (hs : ∀ b ∈ s, b ≠ 101) :
    readUntilE (s ++ 101 :: rest) = some (s, rest) := by
  induction s with
  | nil => simp [readUntilE]
  | cons b bs ih =>
    have hb : b ≠ 101 := hs b (List.mem_cons_self _ _)
    simp only [List.cons_append, readUntilE, if_neg hb]
    rw [show bs.append (101 :: rest) = bs ++ 101 :: rest from rfl,
      ih (fun x hx => hs x (List.mem_cons_of_mem _ hx))]

theorem decodeIntegerM_formatInt (v : Int) (h1 : -(2 ^ 63) ≤ v) (h2 : v ≤ 2 ^ 63 - 1)
    (rest : List Nat) :
    decodeIntegerM (formatInt v ++ 101 :: rest) = .ok (v, rest) := by
  unfold decodeIntegerM
  rw [readUntilE_append _ _ (formatInt_ne_e v)]
  simp only
  rw [if_neg ?hlen0, if_neg ?hlead, if_neg ?hnegz, parseIntGo_formatInt v h1 h2]
  case hlen0 =>
    simp [formatInt_ne_nil v]
  case hlead =>
    rintro ⟨hgt, hhead⟩
    unfold formatInt at hgt hhead
    split_ifs at hgt hhead with hv
    · simp only [List.headD_cons] at hhead
      omega
    · have h10 : 10 ≤ v.toNat := natToDigits_length_gt_one _ (by omega)
      exact natToDigits_head_ne_48 v.toNat (by omega) hhead
  case hnegz =>
    rintro ⟨hlen, hhead, hget⟩
    unfold formatInt at hlen hhead hget
    split_ifs at hlen hhead hget with hv
    · rcases hnd : natToDigits (-v).toNat with _ | ⟨d, ds⟩
      · exact absurd hnd (natToDigits_ne_nil _)
      · rw [hnd] at hlen hget
        simp only [List.length_cons] at hlen
        have hds : ds = [] := by
          cases ds
          · rfl
          · simp at hlen
        subst hds
        simp only [List.getD, List.get?] at hget
        have := natToDigits_head_ne_48 (-v).toNat (by omega)
        rw [hnd] at this
        simp only [List.headD_cons] at this
        simp at hget
        exact this hget
    · have hd := natToDigits_digits v.toNat _ (headD_mem _ 0 (natToDigits_ne_nil _))
      omega

theorem readLengthBytes_digits (ds rest : List Nat) (hds : ∀ d ∈ ds, 48 ≤ d ∧ d ≤ 57) :
    readLengthBytes (ds ++ 58 :: rest) = .ok (ds, rest) := by
  induction ds with
  | nil => simp [readLengthBytes]
  | cons d ds ih =>
    have hd := hds d (List.mem_cons_self _ _)
    simp only [List.cons_append, readLengthBytes]
    rw [if_neg (by omega), if_neg (by omega),
      show ds.append (58 :: rest) = ds ++ 58 :: rest from rfl,
      ih (fun x hx => hds x (List.mem_cons_of_mem _ hx))]

theorem take_len_append {α : Type} (s t : List α) : (s ++ t).take s.length = s := by
  induction s with
  | nil => rfl
  | cons a as ih => simp [ih]

theorem drop_len_append {α : Type} (s t : List α) : (s ++ t).drop s.length = t := by
  induction s with
  | nil => rfl
  | cons a as ih => simp [ih]

theorem decodeStringM_encodeString (s rest : List Nat) (hlen : s.length ≤ 2 ^ 63 - 1) :
    decodeStringM (encodeString s ++ rest) = .ok (s, rest) := by
  unfold decodeStringM
  have harr : encodeString s ++ rest = natToDigits s.length ++ 58 :: (s ++ rest) := by
    unfold encodeString
    simp
  rw [harr, readLengthBytes_digits _ _ (natToDigits_digits _)]
  simp only
  rw [if_neg (natToDigits_ne_nil _),
    parseIntGo_digits _ (natToDigits_ne_nil _) (natToDigits_digits _)
      (by rw [digitsToNat_natToDigits]; exact hlen)]
  simp only [digitsToNat_natToDigits]
  rw [if_neg (by omega : ¬((s.length : Int) < 0))]
  have htoNat : ((s.length : Int)).toNat = s.length := by omega
  rw [htoNat]
  rw [if_neg (by simp)]
  rw [take_len_append, drop_len_append]

theorem encodeString_cons (s : List Nat) :
    ∃ b t, encodeString s = b :: t ∧ 48 ≤ b ∧ b ≤ 57 := by
  unfold encodeString
  rcases hnd : natToDigits s.length with _ | ⟨b, t⟩
  · exact absurd hnd (natToDigits_ne_nil _)
  · have hb := natToDigits_digits s.length b (by rw [hnd]; exact List.mem_cons_self _ _)
    exact ⟨b, t ++ 58 :: s, by simp, hb.1, hb.2⟩

theorem encodeValue_int_eq (n : Int) : encodeValue (.int n) = 105 :: (formatInt n ++ [101]) := by
  simp [encodeValue]

theorem encodeValue_str_eq (s : List Nat) : encodeValue (.str s) = encodeString s := by
  simp [encodeValue]

theorem encodeValue_list_eq (xs : List BValue) :
    encodeValue (.list xs) = 108 :: (encodeList xs ++ [101]) := by
  simp [encodeValue]

theorem encodeValue_dict_eq (es : List (List Nat × BValue)) :
    encodeValue (.dict es) = 100 :: (encodeEntries (sortKeys es) ++ [101]) := by
  simp [encodeValue]

theorem encodeValue_cons (x : BValue) :
    ∃ b t, encodeValue x = b :: t ∧ b ≠ 101 ∧ 1 ≤ t.length := by
  match x with
  | .int n =>
    exact ⟨105, formatInt n ++ [101], encodeValue_int_eq n, by omega, by simp⟩
  | .str s =>
    obtain ⟨b, t, hbt, hb1, hb2⟩ := encodeString_cons s
    refine ⟨b, t, by rw [encodeValue_str_eq, hbt], by omega, ?_⟩
    have hss : encodeString s = natToDigits s.length ++ 58 :: s := rfl
    rw [hss] at hbt
    have hlen : (natToDigits s.length ++ 58 :: s).length = (b :: t).length := by rw [hbt]
    have hn1 : 1 ≤ (natToDigits s.length).length := List.length_pos.mpr (natToDigits_ne_nil _)
    simp only [List.length_append, List.length_cons] at hlen
    omega
  | .list xs =>
    exact ⟨108, encodeList xs ++ [101], encodeValue_list_eq xs, by omega, by simp⟩
  | .dict es =>
    exact ⟨100, encodeEntries (sortKeys es) ++ [101], encodeValue_dict_eq es, by omega, by simp⟩

/-! ### Lexicographic order and sorted keys -/

theorem lexLt_trans (a : List Nat) :
    ∀ b c, lexLt a b = true → lexLt b c = true → lexLt a c = true := by
  induction a with
  | nil =>
    intro b c hab hbc
    cases b with
    | nil => simp [lexLt] at hab
    | cons b0 bs =>
      cases c with
      | nil => simp [lexLt] at hbc
      | cons c0 cs => simp [lexLt]
  | cons a0 as ih =>
    intro b c hab hbc
    cases b with
    | nil => simp [lexLt] at hab
    | cons b0 bs =>
      cases c with
      | nil => simp [lexLt] at hbc
      | cons c0 cs =>
        simp only [lexLt] at hab hbc ⊢
        by_cases h1 : a0 < b0
        · rw [if_pos h1] at hab
          by_cases h2 : b0 < c0
          · rw [if_pos (by omega : a0 < c0)]
          · rw [if_neg h2] at hbc
            by_cases h3 : c0 < b0
            · rw [if_pos h3] at hbc
              cases hbc
            · rw [if_pos (by omega : a0 < c0)]
        · rw [if_neg h1] at hab
          by_cases h1' : b0 < a0
          · rw [if_pos h1'] at hab
            cases hab
          · rw [if_neg h1'] at hab
            by_cases h2 : b0 < c0
            · rw [if_pos (by omega : a0 < c0)]
            · rw [if_neg h2] at hbc
              by_cases h3 : c0 < b0
              · rw [if_pos h3] at hbc
                cases hbc
              · rw [if_neg h3] at hbc
                rw [if_neg (by omega : ¬ a0 < c0), if_neg (by omega : ¬ c0 < a0)]
                exact ih bs cs hab hbc

theorem lexLt_irrefl (a : List Nat) : lexLt a a = false := by
  induction a with
  | nil => rfl
  | cons a0 as ih => simp [lexLt, ih]

theorem lexLt_ne (a b : List Nat) (h : lexLt a b = true) : a ≠ b := by
  intro heq
  subst heq
  rw [lexLt_irrefl] at h
  cases h

theorem keysSortedB_cons (e f : List Nat × BValue) (fs : List (List Nat × BValue))
    (h : keysSortedB (e :: f :: fs) = true) :
    lexLt e.1 f.1 = true ∧ keysSortedB (f :: fs) = true := by
  simpa [keysSortedB, Bool.and_eq_true] using h

theorem keysSortedB_tail (e : List Nat × BValue) (es : List (List Nat × BValue))
    (h : keysSortedB (e :: es) = true) : keysSortedB es = true := by
  cases es with
  | nil => rfl
  | cons f fs => exact (keysSortedB_cons e f fs h).2

theorem keysSortedB_head_lt (k : List Nat) (v : BValue) (es : List (List Nat × BValue))
    (h : keysSortedB ((k, v) :: es) = true) :
    ∀ p ∈ es, lexLt k p.1 = true := by
  induction es generalizing k v with
  | nil =>
    intro p hp
    cases hp
  | cons f fs ih =>
    intro p hp
    have h1 := keysSortedB_cons (k, v) f fs h
    rcases List.mem_cons.mp hp with rfl | hp'
    · exact h1.1
    · obtain ⟨f1, f2⟩ := f
      exact lexLt_trans k f1 p.1 h1.1 (ih f1 f2 h1.2 p hp')

theorem mapInsert_not_mem {κ α : Type} [DecidableEq κ] (m : List (κ × α)) (key : κ) (val : α)
    (h : mlookup m key = none) : mapInsert m key val = m ++ [(key, val)] := by
  induction m with
  | nil => rfl
  | cons p rest ih =>
    obtain ⟨k, v⟩ := p
    simp only [mlookup] at h
    by_cases hk : k = key
    · rw [if_pos hk] at h
      cases h
    · rw [if_neg hk] at h
      simp only [mapInsert, if_neg hk, List.cons_append, ih h]

theorem allValidB_mem (xs : List BValue) (h : allValidB xs = true) :
    ∀ y ∈ xs, ValidB y = true := by
  induction xs with
  | nil =>
    intro y hy
    cases hy
  | cons x xs ih =>
    rw [show allValidB (x :: xs) = (ValidB x && allValidB xs) from by simp [allValidB],
      Bool.and_eq_true] at h
    intro y hy
    rcases List.mem_cons.mp hy with rfl | hy'
    · exact h.1
    · exact ih h.2 y hy'

theorem entriesValidB_mem (es : List (List Nat × BValue)) (h : entriesValidB es = true) :
    ∀ p ∈ es, p.1.length ≤ 2 ^ 63 - 1 ∧ ValidB p.2 = true := by
  induction es with
  | nil =>
    intro p hp
    cases hp
  | cons e es ih =>
    obtain ⟨k, v⟩ := e
    rw [show entriesValidB ((k, v) :: es) =
        (decide (k.length ≤ 2 ^ 63 - 1) && ValidB v && entriesValidB es) from by
      simp [entriesValidB], Bool.and_eq_true, Bool.and_eq_true] at h
    intro p hp
    rcases List.mem_cons.mp hp with rfl | hp'
    · exact ⟨by simpa using h.1.1, h.1.2⟩
    · exact ih h.2 p hp'

theorem sortKeys_sorted (es : List (List Nat × BValue)) (h : keysSortedB es = true) :
    sortKeys es = es := by
  induction es with
  | nil => rfl
  | cons e es ih =>
    cases es with
    | nil => rfl
    | cons f fs =>
      have h1 := keysSortedB_cons e f fs h
      show insertEntry e (sortKeys (f :: fs)) = e :: f :: fs
      rw [ih h1.2]
      simp [insertEntry, h1.1]

/-! ### Round trip: decoding an encoding -/

theorem decodeListF_loop (xs : List BValue)
    (IH : ∀ y ∈ xs, ∀ fuel rest, (encodeValue y).length ≤ fuel →
      decodeValueF fuel (encodeValue y ++ rest) = .ok (y, rest)) :
    ∀ fuel acc rest, (encodeList xs).length + 1 ≤ fuel →
      decodeListF fuel acc (encodeList xs ++ 101 :: rest) = .ok (.list (acc ++ xs), rest) := by
  induction xs with
  | nil =>
    intro fuel acc rest hfuel
    cases fuel with
    | zero => omega
    | succ f =>
      rw [show encodeList ([] : List BValue) = [] from by simp [encodeList]]
      simp [decodeListF]
  | cons y ys ih =>
    intro fuel acc rest hfuel
    have hey : encodeList (y :: ys) = encodeValue y ++ encodeList ys := by simp [encodeList]
    obtain ⟨b, t, hbt, hbne, ht1⟩ := encodeValue_cons y
    have hlen_ey : (encodeValue y).length = t.length + 1 := by rw [hbt]; simp
    have hlen1 : (encodeValue y).length + (encodeList ys).length + 1 ≤ fuel := by
      rw [hey] at hfuel
      simp only [List.length_append] at hfuel
      omega
    cases fuel with
    | zero => omega
    | succ f =>
      rw [hey, List.append_assoc, hbt, List.cons_append]
      simp only [decodeListF]
      rw [if_neg hbne]
      have hval : decodeValueF f (encodeValue y ++ (encodeList ys ++ 101 :: rest)) =
          .ok (y, encodeList ys ++ 101 :: rest) :=
        IH y (List.mem_cons_self _ _) f _ (by omega)
      rw [hbt, List.cons_append] at hval
      rw [hval]
      show decodeListF f (acc ++ [y]) (encodeList ys ++ 101 :: rest) =
        Except.ok (BValue.list (acc ++ y :: ys), rest)
      rw [ih (fun z hz => IH z (List.mem_cons_of_mem _ hz)) f (acc ++ [y]) rest (by omega)]
      simp

theorem decodeDictF_loop (es : List (List Nat × BValue))
    (IH : ∀ p ∈ es, ∀ fuel rest, (encodeValue p.2).length ≤ fuel →
      decodeValueF fuel (encodeValue p.2 ++ rest) = .ok (p.2, rest))
    (hklen : ∀ p ∈ es, p.1.length ≤ 2 ^ 63 - 1) :
    ∀ fuel dict lastKey rest, (encodeEntries es).length + 1 ≤ fuel →
      keysSortedB es = true →
      (∀ p, es.head? = some p → lastKey = [] ∨ lexLt lastKey p.1 = true) →
      (∀ p ∈ es, mlookup dict p.1 = none) →
      decodeDictF fuel dict lastKey (encodeEntries es ++ 101 :: rest) =
        .ok (.dict (dict ++ es), rest) := by
  induction es with
  | nil =>
    intro fuel dict lastKey rest hfuel _ _ _
    cases fuel with
    | zero => omega
    | succ f =>
      rw [show encodeEntries ([] : List (List Nat × BValue)) = [] from by simp [encodeEntries]]
      simp [decodeDictF]
  | cons e es ih =>
    obtain ⟨k, v⟩ := e
    intro fuel dict lastKey rest hfuel hsorted hchain hfresh
    have hee : encodeEntries ((k, v) :: es) = encodeString k ++ encodeValue v ++ encodeEntries es := by
      simp [encodeEntries]
    obtain ⟨b, t, hbt, hb48, hb57⟩ := encodeString_cons k
    obtain ⟨bv, tv, hbtv, hbnev, htv1⟩ := encodeValue_cons v
    have hlen_ek : (encodeString k).length = t.length + 1 := by rw [hbt]; simp
    have hlen_ev : (encodeValue v).length = tv.length + 1 := by rw [hbtv]; simp
    have hlen1 : (encodeString k).length + (encodeValue v).length +
        (encodeEntries es).length + 1 ≤ fuel := by
      rw [hee] at hfuel
      simp only [List.length_append] at hfuel
      omega
    cases fuel with
    | zero => omega
    | succ f =>
      rw [hee, List.append_assoc, List.append_assoc, hbt, List.cons_append]
      simp only [decodeDictF]
      rw [if_neg (by omega : ¬ b = 101)]
      have hstr : decodeStringM (encodeString k ++
          (encodeValue v ++ (encodeEntries es ++ 101 :: rest))) =
          .ok (k, encodeValue v ++ (encodeEntries es ++ 101 :: rest)) :=
        decodeStringM_encodeString k _ (hklen (k, v) (List.mem_cons_self _ _))
      rw [hbt, List.cons_append] at hstr
      rw [hstr]
      have hcheck : ¬ (lexLe k lastKey = true ∧ lastKey ≠ []) := by
        rintro ⟨hc1, hc2⟩
        rcases hchain (k, v) rfl with hl | hl
        · exact hc2 hl
        · rw [show lexLe k lastKey = !(lexLt lastKey k) from rfl, hl] at hc1
          cases hc1
      show (if lexLe k lastKey = true ∧ lastKey ≠ [] then
          (Except.error "dictionary keys not in sorted order" : Except String (BValue × List Nat))
        else match decodeValueF f (encodeValue v ++ (encodeEntries es ++ 101 :: rest)) with
          | Except.error e => Except.error e
          | Except.ok (w, r2) => decodeDictF f (mapInsert dict k w) k r2) =
        Except.ok (BValue.dict (dict ++ (k, v) :: es), rest)
      rw [if_neg hcheck]
      have hval : decodeValueF f (encodeValue v ++ (encodeEntries es ++ 101 :: rest)) =
          .ok (v, encodeEntries es ++ 101 :: rest) :=
        IH (k, v) (List.mem_cons_self _ _) f _ (by show (encodeValue v).length ≤ f; omega)
      rw [hval]
      show decodeDictF f (mapInsert dict k v) k (encodeEntries es ++ 101 :: rest) =
        Except.ok (BValue.dict (dict ++ (k, v) :: es), rest)
      have hfreshk : mlookup dict k = none := hfresh (k, v) (List.mem_cons_self _ _)
      have hlt := keysSortedB_head_lt k v es hsorted
      rw [ih (fun p hp => IH p (List.mem_cons_of_mem _ hp))
        (fun p hp => hklen p (List.mem_cons_of_mem _ hp)) f (mapInsert dict k v) k rest
        (by omega) (keysSortedB_tail _ _ hsorted)
        (fun p hp => Or.inr (hlt p (by
          rcases es with _ | ⟨q, qs⟩
          · cases hp
          · injection hp with hp
            rw [hp]
            exact List.mem_cons_self _ _)))
        (fun p hp => by
          rw [mlookup_mapInsert, if_neg (fun hkp => (lexLt_ne k p.1 (hlt p hp)) hkp)]
          exact hfresh p (List.mem_cons_of_mem _ hp))]
      rw [mapInsert_not_mem dict k v hfreshk]
      simp

theorem decodeValueF_encodeValue :
    ∀ n, ∀ x : BValue, sizeOf x ≤ n → ValidB x = true →
      ∀ fuel rest, (encodeValue x).length ≤ fuel →
        decodeValueF fuel (encodeValue x ++ rest) = .ok (x, rest) := by
  intro n
  induction n with
  | zero =>
    intro x hsize
    exfalso
    cases x <;> simp at hsize
  | succ n ihn =>
    intro x hsize hvalid fuel rest hfuel
    cases x with
    | int v =>
      have hb : -(2 ^ 63) ≤ v ∧ v ≤ 2 ^ 63 - 1 := by
        simpa [ValidB] using hvalid
      rw [encodeValue_int_eq] at hfuel ⊢
      rw [List.cons_append, List.append_assoc,
        show ([101] : List Nat) ++ rest = 101 :: rest from rfl]
      rw [List.length_cons] at hfuel
      cases fuel with
      | zero => omega
      | succ f =>
        simp only [decodeValueF, if_true]
        rw [decodeIntegerM_formatInt v hb.1 hb.2 rest]
    | str s =>
      have hlen : s.length ≤ 2 ^ 63 - 1 := by simpa [ValidB] using hvalid
      obtain ⟨b, t, hbt, hb48, hb57⟩ := encodeString_cons s
      rw [encodeValue_str_eq] at hfuel ⊢
      rw [hbt] at hfuel ⊢
      rw [List.cons_append]
      rw [List.length_cons] at hfuel
      cases fuel with
      | zero => omega
      | succ f =>
        simp only [decodeValueF]
        rw [if_neg (by omega : ¬ b = 105), if_neg (by omega : ¬ b = 108),
          if_neg (by omega : ¬ b = 100),
          if_pos (show isDigit b = true by simp only [isDigit, decide_eq_true_eq]; omega)]
        have hstr := decodeStringM_encodeString s rest hlen
        rw [hbt, List.cons_append] at hstr
        rw [hstr]
    | list xs =>
      have hall : allValidB xs = true := by simpa [ValidB] using hvalid
      rw [encodeValue_list_eq] at hfuel ⊢
      rw [List.cons_append, List.append_assoc,
        show ([101] : List Nat) ++ rest = 101 :: rest from rfl]
      rw [List.length_cons, List.length_append] at hfuel
      cases fuel with
      | zero => omega
      | succ f =>
        simp only [decodeValueF, if_true]
        have IH : ∀ y ∈ xs, ∀ fuel' rest', (encodeValue y).length ≤ fuel' →
            decodeValueF fuel' (encodeValue y ++ rest') = .ok (y, rest') := by
          intro y hy fuel' rest' hf'
          have h1 := List.sizeOf_lt_of_mem hy
          have h2 : sizeOf (BValue.list xs) = 1 + sizeOf xs := by simp
          exact ihn y (by omega) (allValidB_mem xs hall y hy) fuel' rest' hf'
        rw [decodeListF_loop xs IH f [] rest (by simp at hfuel; omega)]
        simp
    | dict es =>
      have hv : keysSortedB es = true ∧ entriesValidB es = true := by
        simpa [ValidB, Bool.and_eq_true] using hvalid
      rw [encodeValue_dict_eq, sortKeys_sorted es hv.1] at hfuel ⊢
      rw [List.cons_append, List.append_assoc,
        show ([101] : List Nat) ++ rest = 101 :: rest from rfl]
      rw [List.length_cons, List.length_append] at hfuel
      cases fuel with
      | zero => omega
      | succ f =>
        simp only [decodeValueF, if_true]
        have IH : ∀ p ∈ es, ∀ fuel' rest', (encodeValue p.2).length ≤ fuel' →
            decodeValueF fuel' (encodeValue p.2 ++ rest') = .ok (p.2, rest') := by
          intro p hp fuel' rest' hf'
          have h1 := List.sizeOf_lt_of_mem hp
          have h2 : sizeOf p.2 < sizeOf p := by
            obtain ⟨pk, pv⟩ := p
            simp
          have h3 : sizeOf (BValue.dict es) = 1 + sizeOf es := by simp
          exact ihn p.2 (by omega) ((entriesValidB_mem es hv.2 p hp).2) fuel' rest' hf'
        rw [decodeDictF_loop es IH (fun p hp => (entriesValidB_mem es hv.2 p hp).1) f [] [] rest
          (by simp at hfuel; omega) hv.1 (fun p _ => Or.inl rfl) (fun p _ => rfl)]
        simp

/-- C2: for every valid codec value of the four kinds, decoding the encoder's
output yields the value again, and any byte string produced by the canonical
encoder is reproduced byte for byte by encoding the decoder's result. -/
theorem c2_codec_roundtrip (x : BValue) (hx : ValidB x = true) :
    Decode (Encode x) = .ok x ∧
    ∀ b, b = Encode x → (Decode b).map Encode = .ok b := by
  have h1 : Decode (Encode x) = .ok x := by
    unfold Decode Encode
    have hmain := decodeValueF_encodeValue (sizeOf x) x (le_refl _) hx
      ((encodeValue x).length + 1) [] (by omega)
    rw [List.append_nil] at hmain
    rw [hmain]
    rfl
  refine ⟨h1, ?_⟩
  intro b hb
  subst hb
  rw [show Decode (Encode x) = Except.ok x from h1]
  rfl

/-- Witness for C2: the spec's own example `d3:cow3:moo4:spam4:eggse`
(keys "cow" < "spam", values "moo" and "eggs"). -/
def c2Example : BValue :=
  .dict [([99, 111, 119], .str [109, 111, 111]), ([115, 112, 97, 109], .str [101, 103, 103, 115])]

theorem c2_witness :
    Decode (Encode c2Example) = .ok c2Example ∧
    ∀ b, b = Encode c2Example → (Decode b).map Encode = .ok b :=
  c2_codec_roundtrip c2Example (by simp [c2Example, ValidB, entriesValidB, keysSortedB, lexLt])

/-- Counterexample to C6 as stated: the stream `d0:i1e0:i2ee` carries two
dictionary keys, both the empty string — the second is lexicographically
equal (hence `<=`) to its predecessor — yet the decoder accepts the stream,
because the order check is skipped whenever the preceding key is empty. -/
theorem c6_counterexample :
    lexLe [] [] = true ∧
    Decode [100, 48, 58, 105, 49, 101, 48, 58, 105, 50, 101, 101] =
      .ok (.dict [([], .int 2)]) :=
  ⟨rfl, rfl⟩

/-- C6 (amended): the decoder rejects a dictionary key that is `<=` its
preceding key whenever the preceding key is non-empty; duplicate empty keys
escape the check (the Go condition is `key <= lastKey && lastKey != ""`).
The Go error text carries the two keys; the model uses the fixed prefix. -/
theorem c6_decoder_rejects_unsorted_keys (k lastKey : List Nat)
    (dict : List (List Nat × BValue)) (rest : List Nat) (fuel : Nat)
    (hklen : k.length ≤ 2 ^ 63 - 1)
    (hle : lexLe k lastKey = true) (hne : lastKey ≠ []) :
    decodeDictF (fuel + 1) dict lastKey (encodeString k ++ rest) =
      .error "dictionary keys not in sorted order" := by
  obtain ⟨b, t, hbt, hb48, hb57⟩ := encodeString_cons k
  rw [hbt, List.cons_append]
  simp only [decodeDictF]
  rw [if_neg (by omega : ¬ b = 101)]
  have hstr := decodeStringM_encodeString k rest hklen
  rw [hbt, List.cons_append] at hstr
  rw [hstr]
  show (if lexLe k lastKey = true ∧ lastKey ≠ [] then
      (Except.error "dictionary keys not in sorted order" : Except String (BValue × List Nat))
    else match decodeValueF fuel rest with
      | Except.error e => Except.error e
      | Except.ok (w, r2) => decodeDictF fuel (mapInsert dict k w) k r2) =
    Except.error "dictionary keys not in sorted order"
  rw [if_pos ⟨hle, hne⟩]

/-- Witness for C6 (amended): key "a" after previous key "b" is rejected. -/
theorem c6_witness :
    decodeDictF 1 [] [98] (encodeString [97] ++ []) =
      .error "dictionary keys not in sorted order" :=
  c6_decoder_rejects_unsorted_keys [97] [98] [] [] 0 (by decide) (by decide) (by decide)

end Bencode

namespace Peer

open BTC

/-! ## Peer wire protocol (package `peer`)

Only the connection state machine matters to the claims: the TCP socket,
handshake and deadlines are I/O.  A `Message` is the parsed wire message
(`Type` byte and payload); `Connection` keeps the four state flags and the
peer's raw bitfield bytes (Go `nil` slice is the empty list).  `HandleMessage`
mutates the connection and returns an error, modelled as
`Connection → Message → Connection × Option String`. -/

/-- Go struct `Message` (`Type` is a Lean keyword; the field is `msgType`). -/
structure Message where
  msgType : Nat
  Payload : List Nat
deriving DecidableEq, Repr

/-- Go struct `Connection` (socket, hashes and peer ids dropped: no claim
mentions them). -/
structure Connection where
  choked : Bool
  choking : Bool
  interested : Bool
  peerInterested : Bool
  bitfield : List Nat
deriving DecidableEq, Repr

/-- Go `NewConnection`: starts choked and choking. -/
def NewConnection : Connection :=
  { choked := true, choking := true, interested := false, peerInterested := false,
    bitfield := [] }

/-- Go `binary.BigEndian.Uint32` on four bytes. -/
def beUint32 (b0 b1 b2 b3 : Nat) : Nat :=
  b0 * 16777216 + b1 * 65536 + b2 * 256 + b3

/-- Go `binary.BigEndian.PutUint32(buf, uint32(n))`: the low 32 bits of `n`,
big-endian. -/
def beBytes4 (n : Int) : List Nat :=
  [(n.emod 4294967296).toNat / 16777216 % 256,
   (n.emod 4294967296).toNat / 65536 % 256,
   (n.emod 4294967296).toNat / 256 % 256,
   (n.emod 4294967296).toNat % 256]

/-- Go `Connection.handleHave`: grow the bitfield to cover the byte, then set
the bit (big-endian within a byte). -/
def Connection.handleHave (c : Connection) (pieceIndex : Nat) : Connection × Option String :=
  let byteIndex := pieceIndex / 8
  let bf := if byteIndex ≥ c.bitfield.length
    then c.bitfield ++ List.replicate (byteIndex + 1 - c.bitfield.length) 0
    else c.bitfield
  let bitIndex := pieceIndex % 8
  ({ c with bitfield := bf.set byteIndex ((bf.getD byteIndex 0) ||| (128 >>> bitIndex)) }, none)

/-- Go `Connection.HandleMessage`: the switch on the message type.  Types 2/3
flip `peerInterested` (Go writes `c.peerInterested`), 6/7/8 only length-check
(the handlers are no-ops), 255 is keep-alive, unknown types are ignored. -/
def Connection.HandleMessage (c : Connection) (msg : Message) : Connection × Option String :=
  if msg.msgType = 0 then ({ c with choked := true }, none)
  else if msg.msgType = 1 then ({ c with choked := false }, none)
  else if msg.msgType = 2 then ({ c with peerInterested := true }, none)
  else if msg.msgType = 3 then ({ c with peerInterested := false }, none)
  else if msg.msgType = 4 then
    if msg.Payload.length ≠ 4 then
      (c, some ("invalid have message length: " ++ toString msg.Payload.length))
    else
      c.handleHave (beUint32 (msg.Payload.getD 0 0) (msg.Payload.getD 1 0)
        (msg.Payload.getD 2 0) (msg.Payload.getD 3 0))
  else if msg.msgType = 5 then ({ c with bitfield := msg.Payload }, none)
  else if msg.msgType = 6 then
    if msg.Payload.length ≠ 12 then
      (c, some ("invalid request message length: " ++ toString msg.Payload.length))
    else (c, none)
  else if msg.msgType = 7 then
    if msg.Payload.length < 8 then
      (c, some ("invalid piece message length: " ++ toString msg.Payload.length))
    else (c, none)
  else if msg.msgType = 8 then
    if msg.Payload.length ≠ 12 then
      (c, some ("invalid cancel message length: " ++ toString msg.Payload.length))
    else (c, none)
  else (c, none)

/-- Go `Connection.IsChoked`. -/
def Connection.IsChoked (c : Connection) : Bool := c.choked

/-- Go `Connection.GetBitfield` (the copy is value semantics here). -/
def Connection.GetBitfield (c : Connection) : List Nat := c.bitfield

/-- Go `Connection.SendRequest`: the outgoing request message, three
big-endian uint32 fields. -/
def SendRequestMsg (pieceIndex begin_ length : Int) : Message :=
  { msgType := 6, Payload := beBytes4 pieceIndex ++ beBytes4 begin_ ++ beBytes4 length }

theorem handleMessage_choked (c : Connection) (msg : Message) (hm : msg.msgType ≠ 1)
    (hc : c.choked = true) : (c.HandleMessage msg).1.choked = true := by
  simp only [Connection.HandleMessage]
  by_cases h0 : msg.msgType = 0
  · rw [if_pos h0]
  rw [if_neg h0]
  by_cases h1 : msg.msgType = 1
  · exact absurd h1 hm
  rw [if_neg h1]
  by_cases h2 : msg.msgType = 2
  · rw [if_pos h2]; exact hc
  rw [if_neg h2]
  by_cases h3 : msg.msgType = 3
  · rw [if_pos h3]; exact hc
  rw [if_neg h3]
  by_cases h4 : msg.msgType = 4
  · rw [if_pos h4]
    by_cases hl : msg.Payload.length ≠ 4
    · rw [if_pos hl]; exact hc
    · rw [if_neg hl]
      simp [Connection.handleHave, hc]
  rw [if_neg h4]
  by_cases h5 : msg.msgType = 5
  · rw [if_pos h5]; exact hc
  rw [if_neg h5]
  by_cases h6 : msg.msgType = 6
  · rw [if_pos h6]
    by_cases hl : msg.Payload.length ≠ 12
    · rw [if_pos hl]; exact hc
    · rw [if_neg hl]; exact hc
  rw [if_neg h6]
  by_cases h7 : msg.msgType = 7
  · rw [if_pos h7]
    by_cases hl : msg.Payload.length < 8
    · rw [if_pos hl]; exact hc
    · rw [if_neg hl]; exact hc
  rw [if_neg h7]
  by_cases h8 : msg.msgType = 8
  · rw [if_pos h8]
    by_cases hl : msg.Payload.length ≠ 12
    · rw [if_pos hl]; exact hc
    · rw [if_neg hl]; exact hc
  rw [if_neg h8]
  exact hc

end Peer

namespace Download

open BTC Pieces

/-! ## Download strategy (package `download`, `strategy.go`)

`RarestFirstStrategy` keeps a `map[int]int` of per-piece peer counts
(association list; an absent key reads as Go's zero value 0).  Go sorts the
candidate slice with `sort.Slice` by `Count <`; insertion sort is a
deterministic refinement of that order, and the claim only depends on the
head having a minimal count. -/

/-- Go struct `RarestFirstStrategy` (mutex dropped). -/
structure RarestFirstStrategy where
  pieceCounts : List (Int × Int)
deriving DecidableEq, Repr

/-- Go `NewRarestFirstStrategy`. -/
def NewRarestFirstStrategy : RarestFirstStrategy := { pieceCounts := [] }

/-- Go `RarestFirstStrategy.UpdatePeerBitfield`: for each `i` in
`[0, GetNumPieces)`, increment the counter of `i` if the peer has piece `i`. -/
def RarestFirstStrategy.UpdatePeerBitfield (rfs : RarestFirstStrategy)
    (peerBitfield : Bitfield) : RarestFirstStrategy :=
  { pieceCounts :=
      (List.range peerBitfield.GetNumPieces.toNat).foldl
        (fun counts n =>
          if peerBitfield.HasPiece ((n : Nat) : Int) then
            mapInsert counts ((n : Nat) : Int) (mlookupD counts ((n : Nat) : Int) 0 + 1)
          else counts)
        rfs.pieceCounts }

/-- Go local struct `PieceRarity` inside `SelectPiece`. -/
structure PieceRarity where
  Index : Int
  Count : Int
deriving DecidableEq, Repr

/-- Insertion step of the sort by `Count`. -/
def insertByCount (p : PieceRarity) : List PieceRarity → List PieceRarity
  | [] => [p]
  | q :: qs => if p.Count < q.Count then p :: q :: qs else q :: insertByCount p qs

/-- Go `sort.Slice(validPieces, by Count <)`, as insertion sort. -/
def sortByCount : List PieceRarity → List PieceRarity
  | [] => []
  | p :: ps => insertByCount p (sortByCount ps)

/-- Go `RarestFirstStrategy.SelectPiece`. -/
def RarestFirstStrategy.SelectPiece (rfs : RarestFirstStrategy)
    (availablePieces : List Int) (peerBitfield : Bitfield) : Except String Int :=
  if availablePieces.isEmpty then .error "no available pieces"
  else
    let validPieces := availablePieces.filterMap (fun pieceIndex =>
      if peerBitfield.HasPiece pieceIndex then
        some ⟨pieceIndex, mlookupD rfs.pieceCounts pieceIndex 0⟩
      else none)
    match sortByCount validPieces with
    | [] => .error "peer has no pieces we need"
    | p :: _ => .ok p.Index

theorem mem_insertByCount (p q : PieceRarity) (l : List PieceRarity) :
    q ∈ insertByCount p l ↔ q = p ∨ q ∈ l := by
  induction l with
  | nil => simp [insertByCount]
  | cons r rs ih =>
    simp only [insertByCount]
    split_ifs
    · simp [List.mem_cons]
    · simp only [List.mem_cons, ih]
      tauto

theorem pairwise_insertByCount (p : PieceRarity) (l : List PieceRarity)
    (hl : l.Pairwise (fun a b => a.Count ≤ b.Count)) :
    (insertByCount p l).Pairwise (fun a b => a.Count ≤ b.Count) := by
  induction l with
  | nil => simp [insertByCount]
  | cons q qs ih =>
    rw [List.pairwise_cons] at hl
    simp only [insertByCount]
    split_ifs with h
    · refine List.Pairwise.cons ?_ (List.Pairwise.cons hl.1 hl.2)
      intro b hb
      rcases List.mem_cons.mp hb with rfl | hb2
      · omega
      · have := hl.1 b hb2
        omega
    · refine List.Pairwise.cons ?_ (ih hl.2)
      intro b hb
      rcases (mem_insertByCount p b qs).mp hb with rfl | hb2
      · omega
      · exact hl.1 b hb2

theorem mem_sortByCount (q : PieceRarity) (l : List PieceRarity) :
    q ∈ sortByCount l ↔ q ∈ l := by
  induction l with
  | nil => simp [sortByCount]
  | cons p ps ih => simp [sortByCount, mem_insertByCount, ih]

theorem pairwise_sortByCount (l : List PieceRarity) :
    (sortByCount l).Pairwise (fun a b => a.Count ≤ b.Count) := by
  induction l with
  | nil => simp [sortByCount]
  | cons p ps ih => exact pairwise_insertByCount p _ ih

theorem sortByCount_head_min (l : List PieceRarity) (p : PieceRarity)
    (rest : List PieceRarity) (h : sortByCount l = p :: rest) :
    p ∈ l ∧ ∀ q ∈ l, p.Count ≤ q.Count := by
  have hmem : p ∈ l := (mem_sortByCount p l).mp (h ▸ List.mem_cons_self _ _)
  refine ⟨hmem, fun q hq => ?_⟩
  have hq2 : q ∈ sortByCount l := (mem_sortByCount q l).mpr hq
  rw [h] at hq2
  rcases List.mem_cons.mp hq2 with rfl | hq3
  · exact le_refl _
  · have hp := pairwise_sortByCount l
    rw [h, List.pairwise_cons] at hp
    exact hp.1 q hq3

theorem hasPiece_nonneg (bf : Bitfield) (i : Int) (h : bf.HasPiece i = true) : 0 ≤ i := by
  by_contra hneg
  rw [Bitfield.HasPiece, if_pos (Or.inl (by omega))] at h
  cases h

theorem counts_foldl (bf : Bitfield) (l : List Nat) (hnd : l.Nodup)
    (c : List (Int × Int)) (i : Int) :
    mlookupD (l.foldl
      (fun counts n =>
        if bf.HasPiece ((n : Nat) : Int) then
          mapInsert counts ((n : Nat) : Int) (mlookupD counts ((n : Nat) : Int) 0 + 1)
        else counts) c) i 0 =
    mlookupD c i 0 + (if i.toNat ∈ l ∧ bf.HasPiece i = true then 1 else 0) := by
  induction l generalizing c with
  | nil => simp
  | cons n l ih =>
    have hnd2 := List.nodup_cons.mp hnd
    rw [List.foldl_cons, ih hnd2.2]
    by_cases hik : i = ((n : Nat) : Int)
    · subst hik
      have htn : ((n : Nat) : Int).toNat = n := Int.toNat_natCast n
      by_cases hHP : bf.HasPiece ((n : Nat) : Int) = true
      · rw [if_pos hHP]
        rw [show mlookupD (mapInsert c ((n : Nat) : Int)
              (mlookupD c ((n : Nat) : Int) 0 + 1)) ((n : Nat) : Int) 0 =
            mlookupD c ((n : Nat) : Int) 0 + 1 by
          rw [mlookupD, mlookup_mapInsert, if_pos rfl]; rfl]
        rw [if_neg (fun hc => hnd2.1 (htn ▸ hc.1)),
          if_pos ⟨htn ▸ List.mem_cons_self n l, hHP⟩]
        omega
      · rw [if_neg hHP, if_neg (fun hc => hHP hc.2), if_neg (fun hc => hHP hc.2)]
    · have hlook : ∀ counts : List (Int × Int),
          mlookupD (if bf.HasPiece ((n : Nat) : Int) = true then
            mapInsert counts ((n : Nat) : Int) (mlookupD counts ((n : Nat) : Int) 0 + 1)
          else counts) i 0 = mlookupD counts i 0 := by
        intro counts
        split_ifs with hHP
        · rw [mlookupD, mlookup_mapInsert, if_neg (fun hc => hik hc.symm)]; rfl
        · rfl
      rw [hlook]
      congr 1
      by_cases hHPi : bf.HasPiece i = true
      · have hpos : 0 ≤ i := hasPiece_nonneg bf i hHPi
        have htn : i.toNat ≠ n := by
          intro hc
          exact hik (by omega)
        simp only [List.mem_cons, htn, false_or]
      · simp [hHPi]

/-- C8: `UpdatePeerBitfield` increments exactly the counters of the pieces the
new peer advertises (for indices inside the bitfield), and a successful
`SelectPiece` returns a candidate the peer has whose counter is minimal over
all candidates the peer has (ties broken arbitrarily). -/
theorem c8_rarest_first_spec (rfs : RarestFirstStrategy) (bf peerBf : Bitfield)
    (avail : List Int) (idx i : Int) (hi : 0 ≤ i) (hin : i < bf.GetNumPieces) :
    (mlookupD (rfs.UpdatePeerBitfield bf).pieceCounts i 0 =
       mlookupD rfs.pieceCounts i 0 + (if bf.HasPiece i then 1 else 0)) ∧
    (rfs.SelectPiece avail peerBf = .ok idx →
       idx ∈ avail ∧ peerBf.HasPiece idx = true ∧
       ∀ j ∈ avail, peerBf.HasPiece j = true →
         mlookupD rfs.pieceCounts idx 0 ≤ mlookupD rfs.pieceCounts j 0) := by
  constructor
  · rw [RarestFirstStrategy.UpdatePeerBitfield,
      counts_foldl bf _ (List.nodup_range _) rfs.pieceCounts i]
    congr 1
    have hmem : i.toNat ∈ List.range bf.GetNumPieces.toNat := by
      rw [List.mem_range]
      rw [Bitfield.GetNumPieces] at hin ⊢
      omega
    by_cases hHP : bf.HasPiece i = true
    · rw [if_pos ⟨hmem, hHP⟩, if_pos hHP]
    · rw [if_neg (fun hc => hHP hc.2), if_neg (by simpa using hHP)]
  · intro hsel
    rw [RarestFirstStrategy.SelectPiece] at hsel
    by_cases hemp : avail.isEmpty
    · rw [if_pos hemp] at hsel
      cases hsel
    rw [if_neg hemp] at hsel
    simp only [] at hsel
    rcases hsort : sortByCount (avail.filterMap (fun pieceIndex =>
        if peerBf.HasPiece pieceIndex = true then
          some ⟨pieceIndex, mlookupD rfs.pieceCounts pieceIndex 0⟩
        else none)) with _ | ⟨p, rest⟩
    · rw [hsort] at hsel
      cases hsel
    · rw [hsort] at hsel
      injection hsel with hsel
      obtain ⟨hpmem, hmin⟩ := sortByCount_head_min _ p rest hsort
      rw [List.mem_filterMap] at hpmem
      obtain ⟨a, ha, hpa⟩ := hpmem
      by_cases hHPa : peerBf.HasPiece a = true
      · rw [if_pos hHPa] at hpa
        injection hpa with hpa
        subst hpa
        subst hsel
        refine ⟨ha, hHPa, ?_⟩
        intro j hj hHPj
        have hqmem : (⟨j, mlookupD rfs.pieceCounts j 0⟩ : PieceRarity) ∈
            avail.filterMap (fun pieceIndex =>
              if peerBf.HasPiece pieceIndex = true then
                some ⟨pieceIndex, mlookupD rfs.pieceCounts pieceIndex 0⟩
              else none) := by
          rw [List.mem_filterMap]
          exact ⟨j, hj, by rw [if_pos hHPj]⟩
        exact hmin _ hqmem
      · rw [if_neg hHPa] at hpa
        cases hpa

/-- Witness for C8: the spec's tie-break example.  Peers with bitfields
set {0,1}, set {1,2} and set {2} (3 pieces) give counts 0 to 1, 1 to 2, 2 to 2;
with candidates [0,1,2] and a peer holding all three pieces the selector
returns piece 0. -/
def rfsDemo : RarestFirstStrategy :=
  ((NewRarestFirstStrategy.UpdatePeerBitfield
      (NewBitfieldFromBytes [192] 3)).UpdatePeerBitfield
    (NewBitfieldFromBytes [96] 3)).UpdatePeerBitfield (NewBitfieldFromBytes [32] 3)

theorem c8_witness :
    (0 : Int) ≤ 0 ∧ (0 : Int) < (NewBitfieldFromBytes [32] 3).GetNumPieces ∧
    rfsDemo.SelectPiece [0, 1, 2] (NewBitfieldFromBytes [224] 3) = .ok 0 ∧
    ((0 : Int) ∈ ([0, 1, 2] : List Int) ∧
      (NewBitfieldFromBytes [224] 3).HasPiece 0 = true ∧
      ∀ j ∈ ([0, 1, 2] : List Int), (NewBitfieldFromBytes [224] 3).HasPiece j = true →
        mlookupD rfsDemo.pieceCounts 0 0 ≤ mlookupD rfsDemo.pieceCounts j 0) :=
  ⟨by decide, by decide, by rfl,
    (c8_rarest_first_spec rfsDemo (NewBitfieldFromBytes [32] 3)
      (NewBitfieldFromBytes [224] 3) [0, 1, 2] 0 0 (by decide) (by decide)).2 (by rfl)⟩

/-! ## Download manager request path (`strategy.go`: `requestBlocks`,
`handleMessage`)

The download manager runs `requestBlocks` from goroutines (on connect, on
unchoke, after each piece message).  The model is event-driven: an event is
either an incoming message (manager `handleMessage` followed by
`Connection.HandleMessage`, as in the Go message loop) or one scheduling of
`requestBlocks`.  Outgoing `request` messages are exactly the messages
`requestBlocks` emits via `SendRequest`; network writes always succeed. -/

/-- Go struct `PeerConnection` (download side): the protocol connection, the
outstanding requests keyed by the Go string `"%d:%d"` of piece and offset
(modelled as the pair of the two integers), and `maxRequests`. -/
structure PeerConnState where
  conn : Peer.Connection
  pendingRequests : List ((Int × Int) × BlockRequest)
  maxRequests : Nat
deriving DecidableEq, Repr

/-- The state that `requestBlocks` and `handleMessage` touch: the piece
manager and one peer connection. -/
structure DMState where
  pm : PieceManager
  peerConn : PeerConnState
deriving DecidableEq, Repr

/-- The request loop of Go `requestBlocks`: while `pendingCount < maxRequests`
take the next block request, send it, and track it; the fuel is
`maxRequests - pendingCount`, which Go's `pendingCount++` per iteration makes
exact. -/
def requestLoop (pieceIndex : Int) :
    Nat → PieceManager → PeerConnState → PieceManager × PeerConnState × List Peer.Message
  | 0, pm, pc => (pm, pc, [])
  | fuel + 1, pm, pc =>
    match pm.GetNextBlockRequest pieceIndex with
    | (some req, pm1, none) =>
      let pc1 := { pc with pendingRequests := mapInsert pc.pendingRequests (req.PieceIndex, req.Begin) req }
      let r := requestLoop pieceIndex fuel pm1 pc1
      (r.1, r.2.1, Peer.SendRequestMsg req.PieceIndex req.Begin req.Length :: r.2.2)
    | (some _, pm1, some _) => (pm1, pc, [])
    | (none, pm1, _) => (pm1, pc, [])

/-- Go `DownloadManager.requestBlocks`, for one peer; `sel` abstracts the
`PieceStrategy` interface. -/
def requestBlocks (sel : List Int → Bitfield → Except String Int) (st : DMState) :
    DMState × List Peer.Message :=
  if st.peerConn.conn.IsChoked then (st, [])
  else if st.peerConn.pendingRequests.length ≥ st.peerConn.maxRequests then (st, [])
  else if st.pm.GetMissingPieces.isEmpty then (st, [])
  else
    match sel st.pm.GetMissingPieces
        (NewBitfieldFromBytes st.peerConn.conn.GetBitfield st.pm.GetBitfield.GetNumPieces) with
    | .error _ => (st, [])
    | .ok pieceIndex =>
      let s := st.pm.StartPiece pieceIndex
      if s.2 ≠ none ∧ s.2 ≠ some ("piece " ++ toString pieceIndex ++ " already in progress") then
        (⟨s.1, st.peerConn⟩, [])
      else
        let r := requestLoop pieceIndex
          (st.peerConn.maxRequests - st.peerConn.pendingRequests.length) s.1 st.peerConn
        (⟨r.1, r.2.1⟩, r.2.2)

/-- Go `DownloadManager.handleMessage`: on a piece message parse index,
offset and data, drop the pending request, and hand the block to the piece
manager; then forward every message to `Connection.HandleMessage`.  The
`go requestBlocks` it spawns on unchoke and after a piece are separate
`tryRequest` events. -/
def dmHandleMessage (h : List Nat → List Nat) (st : DMState) (msg : Peer.Message) : DMState :=
  let st1 :=
    if msg.msgType = 7 ∧ 8 ≤ msg.Payload.length then
      let pieceIndex : Int := (Peer.beUint32 (msg.Payload.getD 0 0) (msg.Payload.getD 1 0)
        (msg.Payload.getD 2 0) (msg.Payload.getD 3 0) : Nat)
      let begin_ : Int := (Peer.beUint32 (msg.Payload.getD 4 0) (msg.Payload.getD 5 0)
        (msg.Payload.getD 6 0) (msg.Payload.getD 7 0) : Nat)
      let pc1 := { st.peerConn with pendingRequests := mapDelete st.peerConn.pendingRequests (pieceIndex, begin_) }
      (⟨(PieceManager.AddBlock h st.pm pieceIndex begin_ (msg.Payload.drop 8)).1, pc1⟩ : DMState)
    else st
  ⟨st1.pm, { st1.peerConn with conn := (st1.peerConn.conn.HandleMessage msg).1 }⟩

/-- A session event: a message arrives, or a `requestBlocks` goroutine runs. -/
inductive SEvent where
  | recv (msg : Peer.Message)
  | tryRequest
deriving DecidableEq, Repr

def sessionStep (h : List Nat → List Nat) (sel : List Int → Bitfield → Except String Int)
    (st : DMState) : SEvent → DMState × List Peer.Message
  | .recv msg => (dmHandleMessage h st msg, [])
  | .tryRequest => requestBlocks sel st

def runSession (h : List Nat → List Nat) (sel : List Int → Bitfield → Except String Int) :
    DMState → List SEvent → DMState × List Peer.Message
  | st, [] => (st, [])
  | st, e :: es =>
    ((runSession h sel (sessionStep h sel st e).1 es).1,
     (sessionStep h sel st e).2 ++ (runSession h sel (sessionStep h sel st e).1 es).2)

theorem dmHandleMessage_choked (h : List Nat → List Nat) (st : DMState) (msg : Peer.Message)
    (hm : msg.msgType ≠ 1) (hc : st.peerConn.conn.choked = true) :
    (dmHandleMessage h st msg).peerConn.conn.choked = true := by
  by_cases h7 : msg.msgType = 7 ∧ 8 ≤ msg.Payload.length
  · simp only [dmHandleMessage, if_pos h7]
    exact Peer.handleMessage_choked st.peerConn.conn msg hm hc
  · simp only [dmHandleMessage, if_neg h7]
    exact Peer.handleMessage_choked st.peerConn.conn msg hm hc

theorem requestBlocks_choked (sel : List Int → Bitfield → Except String Int) (st : DMState)
    (hc : st.peerConn.conn.choked = true) :
    requestBlocks sel st = (st, []) := by
  rw [requestBlocks, if_pos (show st.peerConn.conn.IsChoked = true from hc)]

theorem runSession_choked (h : List Nat → List Nat)
    (sel : List Int → Bitfield → Except String Int) :
    ∀ events st, st.peerConn.conn.choked = true →
      (∀ msg, SEvent.recv msg ∈ events → msg.msgType ≠ 1) →
      (runSession h sel st events).1.peerConn.conn.choked = true ∧
      (runSession h sel st events).2 = [] := by
  intro events
  induction events with
  | nil =>
    intro st hc _
    exact ⟨hc, rfl⟩
  | cons e es ih =>
    intro st hc hno
    have hstep : (sessionStep h sel st e).1.peerConn.conn.choked = true ∧
        (sessionStep h sel st e).2 = [] := by
      rcases e with msg | _
      · exact ⟨dmHandleMessage_choked h st msg (hno msg (List.mem_cons_self _ _)) hc, rfl⟩
      · rw [sessionStep, requestBlocks_choked sel st hc]
        exact ⟨hc, rfl⟩
    have hrest := ih (sessionStep h sel st e).1 hstep.1
      (fun m hmem => hno m (List.mem_cons_of_mem _ hmem))
    rw [runSession]
    exact ⟨hrest.1, by simp [hstep.2, hrest.2]⟩

/-- C9: starting from a fresh connection (Go `NewConnection` starts choked),
a run in which the peer never sends an `unchoke` (type 1) message produces no
outgoing request messages: every `requestBlocks` scheduling returns at the
`IsChoked` guard, and no other handler clears `choked`. -/
theorem c9_never_unchoked_no_requests (h : List Nat → List Nat)
    (sel : List Int → Bitfield → Except String Int) (st : DMState) (events : List SEvent)
    (hstart : st.peerConn.conn = Peer.NewConnection)
    (hno : ∀ msg, SEvent.recv msg ∈ events → msg.msgType ≠ 1) :
    (runSession h sel st events).2 = [] :=
  (runSession_choked h sel events st (by rw [hstart]; rfl) hno).2

/-- Concrete input for the C9 witness: a single-piece manager, a fresh
connection, and a peer that sends its bitfield, a have, and a choke, with a
`requestBlocks` scheduling after each message. -/
def stDemo : DMState := ⟨NewPieceManager 1 1 [[7]], ⟨Peer.NewConnection, [], 10⟩⟩

def eventsDemo : List SEvent :=
  [.recv ⟨5, [224]⟩, .tryRequest, .recv ⟨4, [0, 0, 0, 0]⟩, .tryRequest,
   .recv ⟨0, []⟩, .tryRequest]

def selDemo : List Int → Bitfield → Except String Int :=
  fun avail bf => NewRarestFirstStrategy.SelectPiece avail bf

theorem c9_witness :
    stDemo.peerConn.conn = Peer.NewConnection ∧
    (runSession Pieces.demoHash selDemo stDemo eventsDemo).2 = [] :=
  ⟨rfl, c9_never_unchoked_no_requests Pieces.demoHash selDemo stDemo eventsDemo rfl
    (by intro msg hm
        simp only [eventsDemo, List.mem_cons, List.not_mem_nil, or_false] at hm
        rcases hm with h1 | h1 | h1 | h1 | h1 | h1 <;>
          first
            | (exact SEvent.noConfusion h1)
            | (injection h1 with h2; rw [h2]; decide))⟩

end Download
